import Mathlib

/-!
Verification of the octave-mcp execution core (internal/domain/octave.go).

Strings are modelled as `List Char` (Go strings are byte sequences; all
inputs of interest here are ASCII, where bytes and characters coincide).
Environment variables are modelled as `Option (List Char)` (none = unset).
External effects (subprocess runs, the file system) are modelled by
oracle parameters describing their outcomes, and the functions return
records of the observable behaviour (returned text, error, the script
handed to the interpreter, directory lifecycle).
-/

namespace OctaveMCP

/-- The NUL character stripped by sanitizeScript. -/
def nulChar : Char := Char.ofNat 0

/-- The backtick character checked by validateScript. -/
def btick : Char := Char.ofNat 96

/-- Go strings.Contains: needle occurs as a contiguous substring of hay. -/
def strContains (hay needle : List Char) : Bool :=
  match hay with
  | [] => needle.isEmpty
  | _ :: t => needle.isPrefixOf hay || strContains t needle

/-- Deny list of dangerous function call patterns from validateScript,
in source order. -/
def dangerousFunctions : List (List Char) :=
  ["system(".data, "exec(".data, "popen(".data,
   "eval(".data, "evalin(".data,
   "urlread(".data, "urlwrite(".data,
   "load(".data, "save(".data,
   "unix(".data, "dos(".data,
   "waitpid(".data, "fork(".data]

/-- Deny list of dangerous shell patterns from validateScript, in source
order. -/
def dangerousPatterns : List (List Char) :=
  ["; rm ".data, "; del ".data, "| sh".data, "| bash".data,
   [btick], "&&".data, "||".data]

/-- validateScript from octave.go: returns the error message produced, or
none when the script passes. -/
def validateScript (script : List Char) : Option (List Char) :=
  if strContains script "$(".data || strContains script [btick] then
    some "script contains command substitution patterns".data
  else
    match dangerousFunctions.find? (fun f => strContains script f) with
    | some f => some ("script contains potentially dangerous function: ".data ++ f)
    | none =>
      match dangerousPatterns.find? (fun p => strContains script p) with
      | some p => some ("script contains potentially dangerous pattern: ".data ++ p)
      | none => none

/-- All-digit check plus decimal value, used by the strconv.Atoi model. -/
def digitsVal : List Char → Option Nat
  | [] => none
  | [c] => if c.isDigit then some (c.toNat - 48) else none
  | c :: rest =>
    if c.isDigit then
      match digitsVal rest with
      | some n => some ((c.toNat - 48) * 10 ^ rest.length + n)
      | none => none
    else none

/-- Go strconv.Atoi: optional sign followed by at least one digit. -/
def atoi (s : List Char) : Option Int :=
  match s with
  | '+' :: rest => (digitsVal rest).map Int.ofNat
  | '-' :: rest => (digitsVal rest).map (fun n => -(n : Int))
  | _ => (digitsVal s).map Int.ofNat

/-- The shared pattern for reading a positive-integer environment variable
with a default: unset or empty uses the default, a parse error or a
non-positive value falls back to the default. -/
def envPosInt (v : Option (List Char)) (dflt : Nat) : Nat :=
  match v with
  | none => dflt
  | some s =>
    if s = [] then dflt
    else
      match atoi s with
      | some n => if 0 < n then n.toNat else dflt
      | none => dflt

/-- The process environment, restricted to the variables octave.go reads. -/
structure Env where
  octaveScriptTimeout : Option (List Char)
  octaveConcurrencyLimit : Option (List Char)
  octaveScriptLengthLimit : Option (List Char)

/-- OCTAVE_SCRIPT_LENGTH_LIMIT as read inside sanitizeScript
(default 10000). -/
def scriptLengthLimit (v : Option (List Char)) : Nat := envPosInt v 10000

/-- sanitizeScript from octave.go: strip NUL bytes, then truncate to the
configured length limit when the remaining length exceeds it. -/
def sanitizeScript (lenEnv : Option (List Char)) (script : List Char) : List Char :=
  let s := script.filter (fun c => c ≠ nulChar)
  let lim := scriptLengthLimit lenEnv
  if lim < s.length then s.take lim else s

/-! ### Output filter

filterOutput applies four regexp substitutions in order (octave.go
lines 267-282).  Each substitution is modelled as a left-to-right
scanner faithful to RE2 leftmost-first matching: at each position it
decides whether a match of the pattern starts there (using bounded
lookahead), replaces it and resumes after the match, else copies the
character.  The scanners use a skip counter so that recursion stays
structural.  RE2 specifics respected here: the character class \s is
[\t\n\f\r ]; \b is an ASCII word/non-word transition; ReplaceAllString
scans the original text, so lookbehind context is the original
character. -/

/-- RE2 whitespace class \s = [\t\n\f\r ]. -/
def isRESpace (c : Char) : Bool := c = '\t' || c = '\n' || c = Char.ofNat 12 || c = '\r' || c = ' '

/-- Complement class boundary of [^:\s]. -/
def isPathStop (c : Char) : Bool := c = ':' || isRESpace c

/-- RE2 ASCII word character, for \b. -/
def isWordChar (c : Char) : Bool := c.isAlpha || c.isDigit || c = '_'

/-- \b before a character: wordness changes (start of text counts as
non-word). -/
def boundary (prev : Option Char) (c : Char) : Bool :=
  match prev with
  | none => isWordChar c
  | some p => isWordChar p != isWordChar c

/-- \b after the last character of a match (end of text counts as
non-word). -/
def endBoundary (last : Char) (next : Option Char) : Bool :=
  match next with
  | none => isWordChar last
  | some n => isWordChar last != isWordChar n

/-- Length of the [^:\s]* tail of a path match. -/
def pathMatchLen (rest : List Char) : Nat := (rest.takeWhile (fun d => !isPathStop d)).length

/-- Substitution for the pattern /[^:\s]* with replacement /[REDACTED]. -/
def pathAux : Nat → List Char → List Char
  | _, [] => []
  | k+1, _ :: rest => pathAux k rest
  | 0, c :: rest =>
    if c = '/' then "/[REDACTED]".data ++ pathAux (pathMatchLen rest) rest
    else c :: pathAux 0 rest

/-- Class [A-Z_], the start of an environment-variable name. -/
def isUpperStart (c : Char) : Bool := ('A' ≤ c && c ≤ 'Z') || c = '_'

/-- Class [A-Z0-9_], the continuation of an environment-variable name. -/
def isEnvRun (c : Char) : Bool := isUpperStart c || c.isDigit

/-- Lookahead for the pattern [A-Z_][A-Z0-9_]*=[^:\s]* at a position whose
first character is c: returns how many characters of rest the match
consumes beyond c.  The name run is maximal, so the literal = can only
follow the full run. -/
def envMatchLen (c : Char) (rest : List Char) : Option Nat :=
  if isUpperStart c then
    match rest.drop (rest.takeWhile isEnvRun).length with
    | '=' :: tail =>
      some ((rest.takeWhile isEnvRun).length + 1
        + (tail.takeWhile (fun d => !isPathStop d)).length)
    | _ => none
  else none

/-- Substitution for [A-Z_][A-Z0-9_]*=[^:\s]* with replacement
[REDACTED]. -/
def envAux : Nat → List Char → List Char
  | _, [] => []
  | k+1, _ :: rest => envAux k rest
  | 0, c :: rest =>
    match envMatchLen c rest with
    | some m => "[REDACTED]".data ++ envAux m rest
    | none => c :: envAux 0 rest

/-- One [0-9]{1,3}\. group of the IPv4 pattern.  The digit run is
maximal; a shorter greedy choice would put a digit where \. must match,
so only the full run (of length 1..3) can succeed. -/
def ipGroup (s : List Char) : Option (Nat × List Char) :=
  if 1 ≤ (s.takeWhile Char.isDigit).length && (s.takeWhile Char.isDigit).length ≤ 3 then
    match s.drop (s.takeWhile Char.isDigit).length with
    | '.' :: r => some ((s.takeWhile Char.isDigit).length + 1, r)
    | _ => none
  else none

/-- The final [0-9]{1,3}\b of the IPv4 pattern.  Shorter greedy choices
end before a digit, where \b fails, so only the full run can succeed. -/
def ipTail (s : List Char) : Option Nat :=
  if 1 ≤ (s.takeWhile Char.isDigit).length && (s.takeWhile Char.isDigit).length ≤ 3 then
    match s.drop (s.takeWhile Char.isDigit).length with
    | [] => some (s.takeWhile Char.isDigit).length
    | c :: _ => if isWordChar c then none else some (s.takeWhile Char.isDigit).length
  else none

/-- Lookahead for (?:[0-9]{1,3}\.){3}[0-9]{1,3}\b at the head of s:
total number of characters consumed. -/
def ipFromStart (s : List Char) : Option Nat :=
  match ipGroup s with
  | none => none
  | some (n1, r1) =>
    match ipGroup r1 with
    | none => none
    | some (n2, r2) =>
      match ipGroup r2 with
      | none => none
      | some (n3, r3) =>
        match ipTail r3 with
        | none => none
        | some n4 => some (n1 + n2 + n3 + n4)

/-- Substitution for \b(?:[0-9]{1,3}\.){3}[0-9]{1,3}\b with replacement
[IP_ADDRESS].  prev is the previous character of the original text, for
\b. -/
def ipAux : Option Char → Nat → List Char → List Char
  | _, _, [] => []
  | _, k+1, c :: rest => ipAux (some c) k rest
  | prev, 0, c :: rest =>
    if boundary prev c && c.isDigit then
      match ipFromStart (c :: rest) with
      | some m => "[IP_ADDRESS]".data ++ ipAux (some c) (m - 1) rest
      | none => c :: ipAux (some c) 0 rest
    else c :: ipAux (some c) 0 rest

/-- Class [A-Za-z0-9._%+-], the local part of the email pattern. -/
def isLocalChar (c : Char) : Bool :=
  c.isAlpha || c.isDigit || c = '.' || c = '_' || c = '%' || c = '+' || c = '-'

/-- Class [A-Za-z0-9.-], the domain part of the email pattern. -/
def isDomainChar (c : Char) : Bool := c.isAlpha || c.isDigit || c = '.' || c = '-'

/-- Class [A-Z|a-z] of the email pattern (the source character class
literally contains the bar character). -/
def isTldChar (c : Char) : Bool := c.isAlpha || c = '|'

/-- Greedy [A-Z|a-z]{2,}\b: given the maximal class run (reversed) and
the character following it, the largest k ≥ 2 whose end satisfies \b.
Shortening by one exposes the dropped character as the \b context. -/
def tldTakeRev : List Char → Option Char → Option Nat
  | [], _ => none
  | last :: rrest, after =>
    if rrest.length + 1 ≥ 2 && endBoundary last after then some (rrest.length + 1)
    else tldTakeRev rrest (some last)

/-- Greedy backtracking over the split of [A-Za-z0-9.-]+\. : try the
literal dot at index j+1, j, ..., 1 of the text after the at sign
(leftmost-first regex semantics prefer the longest domain prefix).
Returns the number of characters consumed after the at sign. -/
def tldAttempt (tail : List Char) : Option Nat :=
  tldTakeRev (tail.takeWhile isTldChar).reverse
    ((tail.drop (tail.takeWhile isTldChar).length).head?)

def domainSplit (rest : List Char) : Nat → Option Nat
  | 0 => none
  | j+1 =>
    match
      (if rest.get? (j+1) = some '.' then
        (tldAttempt (rest.drop (j+2))).map (fun k => (j+1) + 1 + k)
      else none) with
    | some v => some v
    | none => domainSplit rest j

/-- Lookahead for [A-Za-z0-9._%+-]+@[A-Za-z0-9.-]+\.[A-Z|a-z]{2,}\b at
the head of s: total number of characters consumed.  The local run is
maximal, so the literal at sign can only follow the full run. -/
def emailFromStart (s : List Char) : Option Nat :=
  match s.drop (s.takeWhile isLocalChar).length with
  | '@' :: rest =>
    (domainSplit rest ((rest.takeWhile isDomainChar).length - 1)).map
      (fun v => (s.takeWhile isLocalChar).length + 1 + v)
  | _ => none

/-- Substitution for \b[A-Za-z0-9._%+-]+@[A-Za-z0-9.-]+\.[A-Z|a-z]{2,}\b
with replacement [EMAIL]. -/
def emailAux : Option Char → Nat → List Char → List Char
  | _, _, [] => []
  | _, k+1, c :: rest => emailAux (some c) k rest
  | prev, 0, c :: rest =>
    if boundary prev c && isLocalChar c then
      match emailFromStart (c :: rest) with
      | some m => "[EMAIL]".data ++ emailAux (some c) (m - 1) rest
      | none => c :: emailAux (some c) 0 rest
    else c :: emailAux (some c) 0 rest

/-- filterOutput from octave.go: path, environment-variable, IPv4 and
email redaction, in source order. -/
def filterOutput (s : List Char) : List Char :=
  emailAux none 0 (ipAux none 0 (envAux 0 (pathAux 0 s)))

/-! ### Process executor -/

/-- Go unicode.IsSpace restricted to ASCII, as used by
strings.TrimSpace. -/
def isGoSpace (c : Char) : Bool :=
  c = ' ' || c = '\t' || c = '\n' || c = Char.ofNat 11 || c = Char.ofNat 12 || c = '\r'

/-- Go strings.TrimSpace. -/
def trimSpace (s : List Char) : List Char :=
  ((s.dropWhile isGoSpace).reverse.dropWhile isGoSpace).reverse

/-- The Runner struct from octave.go.  It stores the logger (irrelevant
here), the semaphore (its capacity), and the probed version string -
notably no timeout field. -/
structure Runner where
  semaphoreCap : Nat
  version : List Char

/-- NewRunner: the concurrency limit is read from the environment at
construction; the version comes from the probe.  OCTAVE_SCRIPT_TIMEOUT
is read in NewRunner only for the version-probe deadline and is not
stored. -/
def newRunner (env : Env) (probedVersion : List Char) : Runner :=
  { semaphoreCap := envPosInt env.octaveConcurrencyLimit 10
    version := probedVersion }

/-- Deadline (seconds) used for the version probe inside NewRunner. -/
def versionCheckTimeout (env : Env) : Nat := envPosInt env.octaveScriptTimeout 10

/-- Outcome of one subprocess run: captured stdout and stderr, and
whether cmd.Run returned an error (non-zero exit or deadline). -/
structure ExecOutcome where
  stdout : List Char
  stderr : List Char
  failed : Bool

/-- The subprocess invocation ExecuteScript performs, when it reaches
that point: the --eval argument and the timeout seconds of the
context deadline. -/
structure SpawnInfo where
  script : List Char
  timeoutSec : Nat
deriving DecidableEq

/-- Error classification of ExecuteScript, following the code paths. -/
inductive ExecError where
  | ctxDone
  | emptyScript
  | invalidScript (msg : List Char)
  | execFailed
deriving DecidableEq

/-- Observable result of one ExecuteScript call. -/
structure ExecResult where
  text : List Char
  error : Option ExecError
  spawned : Option SpawnInfo
deriving DecidableEq

/-- ExecuteScript from octave.go (lines 195-259).  cancelled models the
context being done while waiting for the semaphore; outcome models the
subprocess.  The environment is read at call time, exactly as the code
does. -/
def executeScript (_r : Runner) (env : Env) (cancelled : Bool)
    (script : List Char) (outcome : ExecOutcome) : ExecResult :=
  if cancelled then
    { text := [], error := some .ctxDone, spawned := none }
  else if script = [] then
    { text := [], error := some .emptyScript, spawned := none }
  else
    match validateScript script with
    | some msg => { text := [], error := some (.invalidScript msg), spawned := none }
    | none =>
      let sanitized := sanitizeScript env.octaveScriptLengthLimit script
      let timeout := envPosInt env.octaveScriptTimeout 10
      let spawn := some { script := sanitized, timeoutSec := timeout }
      let result := filterOutput (trimSpace outcome.stdout)
      if outcome.failed then
        { text := filterOutput outcome.stderr ++ '\n' :: result
          error := some .execFailed
          spawned := spawn }
      else
        { text := result, error := none, spawned := spawn }

/-! ### Plot pipeline -/

/-- Go strings.ToLower restricted to ASCII. -/
def toLowerStr (s : List Char) : List Char := s.map Char.toLower

/-- filepath.Join of the temporary directory and the plot file name. -/
def plotFilePath (tempDir fmtLower : List Char) : List Char :=
  tempDir ++ "/plot.".data ++ fmtLower

/-- The wrapper script GeneratePlot builds around the sanitized caller
script (octave.go lines 336-341), as a raw Go string literal starting
with a newline. -/
def wrappedScript (inner plotFile : List Char) : List Char :=
  "\ngraphics_toolkit(\"gnuplot\");\nset(0, \"defaultfigurevisible\", \"off\");\n".data
    ++ inner ++ "\nprint(\"".data ++ plotFile ++ "\");\n".data

/-- Error classification of GeneratePlot, following the code paths. -/
inductive PlotError where
  | ctxDone
  | unsupportedFormat (fmtLower : List Char)
  | invalidScript (msg : List Char)
  | mkdirFailed
  | chmodFailed
  | plotGenerationFailed
  | readPlotFileFailed
deriving DecidableEq

/-- Filesystem and subprocess oracles for one GeneratePlot call. -/
structure PlotWorld where
  cancelled : Bool
  mkdirResult : Option (List Char)
  chmodOk : Bool
  innerCancelled : Bool
  outcome : ExecOutcome
  readResult : Option (List Char)

/-- Observable result of one GeneratePlot call, including the lifecycle
of the temporary directory and the nested ExecuteScript call. -/
structure PlotResult where
  result : Except PlotError (List Char)
  dirCreated : Bool
  dirExistsAfter : Bool
  innerExecution : Option ExecResult

/-- The nested ExecuteScript call GeneratePlot makes: the wrapper around
the sanitized caller script, executed with the call-time environment. -/
def plotInner (r : Runner) (env : Env) (script fmt tempDir : List Char)
    (w : PlotWorld) : ExecResult :=
  executeScript r env w.innerCancelled
    (wrappedScript (sanitizeScript env.octaveScriptLengthLimit script)
      (plotFilePath tempDir (toLowerStr fmt)))
    w.outcome

/-- GeneratePlot from octave.go (lines 284-362): semaphore, format
check, script validation, temp dir creation, chmod (with explicit
cleanup on failure), wrapped-script execution through ExecuteScript,
plot file read, and deferred removal of the directory on the remaining
exits. -/
def generatePlot (r : Runner) (env : Env) (script fmt : List Char)
    (w : PlotWorld) : PlotResult :=
  if w.cancelled then
    { result := .error .ctxDone, dirCreated := false, dirExistsAfter := false,
      innerExecution := none }
  else if toLowerStr fmt ≠ "png".data ∧ toLowerStr fmt ≠ "svg".data then
    { result := .error (.unsupportedFormat (toLowerStr fmt)), dirCreated := false,
      dirExistsAfter := false, innerExecution := none }
  else
    match validateScript script with
    | some msg =>
      { result := .error (.invalidScript msg), dirCreated := false,
        dirExistsAfter := false, innerExecution := none }
    | none =>
      match w.mkdirResult with
      | none =>
        { result := .error .mkdirFailed, dirCreated := false,
          dirExistsAfter := false, innerExecution := none }
      | some tempDir =>
        if ¬ w.chmodOk then
          { result := .error .chmodFailed, dirCreated := true,
            dirExistsAfter := false, innerExecution := none }
        else
          if (plotInner r env script fmt tempDir w).error.isSome then
            { result := .error .plotGenerationFailed, dirCreated := true,
              dirExistsAfter := false,
              innerExecution := some (plotInner r env script fmt tempDir w) }
          else
            match w.readResult with
            | none =>
              { result := .error .readPlotFileFailed, dirCreated := true,
                dirExistsAfter := false,
                innerExecution := some (plotInner r env script fmt tempDir w) }
            | some imgData =>
              { result := .ok imgData, dirCreated := true,
                dirExistsAfter := false,
                innerExecution := some (plotInner r env script fmt tempDir w) }

/-! ### Concrete inputs used by counterexamples and witnesses -/

/-- Environment with none of the three variables set. -/
def defaultEnv : Env := ⟨none, none, none⟩

/-- A runner constructed under the default environment. -/
def runner0 : Runner := newRunner defaultEnv "9.2.0".data

/-- A successful subprocess outcome with empty output. -/
def okOutcome : ExecOutcome := ⟨[], [], false⟩

/-- Environment with OCTAVE_SCRIPT_TIMEOUT=5. -/
def env5 : Env := ⟨some "5".data, none, none⟩

/-- Environment with OCTAVE_SCRIPT_TIMEOUT=7. -/
def env7 : Env := ⟨some "7".data, none, none⟩

/-- A plot world where every external step succeeds. -/
def plotWorld0 : PlotWorld :=
  ⟨false, some "/tmp/octave-plot-1".data, true, false, okOutcome, some "img".data⟩


/-! ### Fixed-point predicates for the output filter -/

/-- Positionwise fixed-point test for the path substitution: every
slash is followed by exactly the run [REDACTED] (then a stop character
or the end), so each path match replaces itself. -/
def pathFixed : List Char → Bool
  | [] => true
  | c :: rest =>
    (!(c = '/') || ((rest.takeWhile (fun d => !isPathStop d)) == "[REDACTED]".data))
      && pathFixed rest

/-- No environment-variable match starts anywhere in the text. -/
def noEnv : List Char → Bool
  | [] => true
  | c :: rest => (envMatchLen c rest).isNone && noEnv rest

/-- No IPv4 match starts anywhere in the text (prev is the character
before the text, for the leading word boundary). -/
def noIp : Option Char → List Char → Bool
  | _, [] => true
  | prev, c :: rest =>
    !(boundary prev c && c.isDigit && (ipFromStart (c :: rest)).isSome) && noIp (some c) rest

/-- No email match starts anywhere in the text. -/
def noEmail : Option Char → List Char → Bool
  | _, [] => true
  | prev, c :: rest =>
    !(boundary prev c && isLocalChar c && (emailFromStart (c :: rest)).isSome)
      && noEmail (some c) rest

/-- The previous-character context after consuming pre on top of p. -/
def prevThrough (p : Option Char) (pre : List Char) : Option Char :=
  match pre.getLast? with
  | some c => some c
  | none => p

/-- The wordness of the previous-character context; none behaves as
non-word. -/
def prevW (q : Option Char) : Bool :=
  match q with
  | none => false
  | some c => isWordChar c

/-- Shape of an IPv4 match: four digit groups of one to three digits
separated by dots, followed by a non-word character or the end. -/
def IpShape (w : List Char) (m : Nat) : Prop :=
  ∃ d1 d2 d3 d4 r,
    w = d1 ++ '.' :: (d2 ++ '.' :: (d3 ++ '.' :: (d4 ++ r))) ∧
    d1.all Char.isDigit = true ∧ 1 ≤ d1.length ∧ d1.length ≤ 3 ∧
    d2.all Char.isDigit = true ∧ 1 ≤ d2.length ∧ d2.length ≤ 3 ∧
    d3.all Char.isDigit = true ∧ 1 ≤ d3.length ∧ d3.length ≤ 3 ∧
    d4.all Char.isDigit = true ∧ 1 ≤ d4.length ∧ d4.length ≤ 3 ∧
    m = d1.length + d2.length + d3.length + d4.length + 3 ∧
    (∀ c, r.head? = some c → isWordChar c = false)

/-- The first character of b, or the fallback when b is empty. -/
def headOr (b : List Char) (after : Option Char) : Option Char :=
  match b with
  | [] => after
  | c :: _ => some c

/-- Shape of an email match: a nonempty local part, the at sign, a
nonempty domain part, a literal dot, a class run of length at least
two, and a trailing word boundary. -/
def EmailShape (w : List Char) (m : Nat) : Prop :=
  ∃ l d t r tlast,
    w = l ++ '@' :: (d ++ '.' :: (t ++ r)) ∧
    l ≠ [] ∧ l.all isLocalChar = true ∧
    d ≠ [] ∧ d.all isDomainChar = true ∧
    t.all isTldChar = true ∧ 2 ≤ t.length ∧ t.getLast? = some tlast ∧
    endBoundary tlast r.head? = true ∧
    m = l.length + 1 + d.length + 1 + t.length

/-- At a position whose first character is c and remaining text begins
with rest, the environment matcher fails for every continuation: either
c cannot start a name, or the name run stops strictly inside rest at a
character other than the equals sign. -/
def envBlockedAt (c : Char) (rest : List Char) : Bool :=
  !isUpperStart c ||
    (match rest.dropWhile isEnvRun with
     | d :: _ => d != '='
     | [] => false)

def envBlocked : List Char → Bool
  | [] => true
  | c :: rest => envBlockedAt c rest && envBlocked rest

/-- At a position starting with c, the email matcher fails for every
continuation: the local run stops strictly inside c :: rest at a
character other than the at sign. -/
def emailBlockedAt (c : Char) (rest : List Char) : Bool :=
  match (c :: rest).dropWhile isLocalChar with
  | d :: _ => d != '@'
  | [] => false

def emailBlocked : List Char → Bool
  | [] => true
  | c :: rest => emailBlockedAt c rest && emailBlocked rest

end OctaveMCP

namespace OctaveMCP

/-! ### Shared lemmas -/

/-! ### C6 development -/

theorem pathAux_skip : ∀ (l : List Char) (k : Nat), pathAux k l = pathAux 0 (l.drop k)
  | [], k => by cases k <;> rfl
  | _ :: _, 0 => rfl
  | c :: rest, k+1 => by
    show pathAux k rest = _
    rw [pathAux_skip rest k]
    rfl

theorem envAux_skip : ∀ (l : List Char) (k : Nat), envAux k l = envAux 0 (l.drop k)
  | [], k => by cases k <;> rfl
  | _ :: _, 0 => rfl
  | c :: rest, k+1 => by
    show envAux k rest = _
    rw [envAux_skip rest k]
    rfl

theorem prevThrough_cons (p : Option Char) (c : Char) (pre : List Char) :
    prevThrough p (c :: pre) = prevThrough (some c) pre := by
  unfold prevThrough
  cases pre with
  | nil => rfl
  | cons e tl =>
    rw [List.getLast?_cons_cons]
    cases h : (e :: tl).getLast? with
    | none => simp at h
    | some d => rfl

theorem ipAux_skip : ∀ (l : List Char) (k : Nat) (p : Option Char),
    ipAux p k l = ipAux (prevThrough p (l.take k)) 0 (l.drop k)
  | [], k, p => by cases k <;> rfl
  | _ :: _, 0, p => rfl
  | c :: rest, k+1, p => by
    show ipAux (some c) k rest = _
    rw [ipAux_skip rest k (some c)]
    rw [List.take_succ_cons, prevThrough_cons]
    rfl

theorem emailAux_skip : ∀ (l : List Char) (k : Nat) (p : Option Char),
    emailAux p k l = emailAux (prevThrough p (l.take k)) 0 (l.drop k)
  | [], k, p => by cases k <;> rfl
  | _ :: _, 0, p => rfl
  | c :: rest, k+1, p => by
    show emailAux (some c) k rest = _
    rw [emailAux_skip rest k (some c)]
    rw [List.take_succ_cons, prevThrough_cons]
    rfl

theorem length_dropWhile_le (p : Char → Bool) :
    ∀ l : List Char, (l.dropWhile p).length ≤ l.length
  | [] => Nat.le_refl 0
  | c :: rest => by
    rw [List.dropWhile_cons]
    by_cases h : p c = true
    · rw [if_pos h]
      exact Nat.le_trans (length_dropWhile_le p rest) (Nat.le_succ _)
    · rw [if_neg h]

theorem bandE {a b : Bool} (h : (a && b) = true) : a = true ∧ b = true := by
  cases a <;> cases b <;> simp_all

theorem pathFixed_tail : ∀ (c : Char) (rest : List Char), pathFixed (c :: rest) = true →
    pathFixed rest = true := by
  intro c rest h
  have h' : ((!(c = '/') || (rest.takeWhile (fun d => !isPathStop d) == "[REDACTED]".data))
      && pathFixed rest) = true := h
  exact (bandE h').2

theorem pathFixed_append_right : ∀ (a b : List Char), pathFixed (a ++ b) = true →
    pathFixed b = true
  | [], b => fun h => h
  | c :: a, b => fun h => pathFixed_append_right a b (pathFixed_tail c (a ++ b) h)

theorem pathFixed_self : ∀ (t : List Char), pathFixed t = true → pathAux 0 t = t
  | [] => fun _ => rfl
  | c :: rest => fun h => by
    have h' : ((!(c = '/') || (rest.takeWhile (fun d => !isPathStop d) == "[REDACTED]".data))
        && pathFixed rest) = true := h
    have hparts := bandE h' 
    by_cases hc : c = '/'
    · have hrun : rest.takeWhile (fun d => !isPathStop d) = "[REDACTED]".data := by
        have := hparts.1
        rw [hc] at this
        simpa using this
      have hsplit : rest = "[REDACTED]".data ++ rest.dropWhile (fun d => !isPathStop d) := by
        conv_lhs => rw [← List.takeWhile_append_dropWhile (p := fun d => !isPathStop d) (l := rest)]
        rw [hrun]
      have hlen : pathMatchLen rest = 10 := by
        unfold pathMatchLen
        rw [hrun]
        decide
      have hdrop : rest.drop 10 = rest.dropWhile (fun d => !isPathStop d) := by
        conv_lhs => rw [hsplit]
        have h11 : ("[REDACTED]".data).length = 10 := by decide
        rw [← h11, List.drop_left]
      have hfix : pathFixed (rest.dropWhile (fun d => !isPathStop d)) = true :=
        pathFixed_append_right _ _ (hsplit ▸ hparts.2)
      have hrec : pathAux 0 (rest.dropWhile (fun d => !isPathStop d)) =
          rest.dropWhile (fun d => !isPathStop d) :=
        pathFixed_self _ hfix
      subst hc
      show (if ('/' : Char) = '/' then "/[REDACTED]".data ++ pathAux (pathMatchLen rest) rest
            else '/' :: pathAux 0 rest) = '/' :: rest
      rw [if_pos rfl, hlen, pathAux_skip rest 10, hdrop, hrec]
      conv_rhs => rw [hsplit]
      rfl
    · show (if c = '/' then "/[REDACTED]".data ++ pathAux (pathMatchLen rest) rest
            else c :: pathAux 0 rest) = c :: rest
      rw [if_neg hc, pathFixed_self rest hparts.2]
  termination_by t => t.length
  decreasing_by
    · simp only [List.length_cons]
      have := length_dropWhile_le (fun d => !isPathStop d) rest
      omega
    · simp only [List.length_cons]
      omega

theorem noEnv_self : ∀ (t : List Char), noEnv t = true → envAux 0 t = t
  | [] => fun _ => rfl
  | c :: rest => fun h => by
    have h' : ((envMatchLen c rest).isNone && noEnv rest) = true := h
    have hparts := bandE h' 
    show (match envMatchLen c rest with
          | some m => "[REDACTED]".data ++ envAux m rest
          | none => c :: envAux 0 rest) = c :: rest
    cases hm : envMatchLen c rest with
    | some m => rw [hm] at hparts; simp at hparts
    | none => simp only; rw [noEnv_self rest hparts.2]

theorem noIp_self : ∀ (t : List Char) (p : Option Char), noIp p t = true → ipAux p 0 t = t
  | [] , _ => fun _ => rfl
  | c :: rest, p => fun h => by
    have h' : ((!(boundary p c && c.isDigit && (ipFromStart (c :: rest)).isSome))
        && noIp (some c) rest) = true := h
    have hparts := bandE h' 
    show (if boundary p c && c.isDigit then
            match ipFromStart (c :: rest) with
            | some m => "[IP_ADDRESS]".data ++ ipAux (some c) (m - 1) rest
            | none => c :: ipAux (some c) 0 rest
          else c :: ipAux (some c) 0 rest) = c :: rest
    by_cases hb : (boundary p c && c.isDigit) = true
    · rw [if_pos hb]
      cases hm : ipFromStart (c :: rest) with
      | some m =>
        exfalso
        rw [hb, hm] at hparts
        simp at hparts
      | none => simp only; rw [noIp_self rest (some c) hparts.2]
    · rw [if_neg hb, noIp_self rest (some c) hparts.2]

theorem noEmail_self : ∀ (t : List Char) (p : Option Char), noEmail p t = true →
    emailAux p 0 t = t
  | [] , _ => fun _ => rfl
  | c :: rest, p => fun h => by
    have h' : ((!(boundary p c && isLocalChar c && (emailFromStart (c :: rest)).isSome))
        && noEmail (some c) rest) = true := h
    have hparts := bandE h' 
    show (if boundary p c && isLocalChar c then
            match emailFromStart (c :: rest) with
            | some m => "[EMAIL]".data ++ emailAux (some c) (m - 1) rest
            | none => c :: emailAux (some c) 0 rest
          else c :: emailAux (some c) 0 rest) = c :: rest
    by_cases hb : (boundary p c && isLocalChar c) = true
    · rw [if_pos hb]
      cases hm : emailFromStart (c :: rest) with
      | some m =>
        exfalso
        rw [hb, hm] at hparts
        simp at hparts
      | none => simp only; rw [noEmail_self rest (some c) hparts.2]
    · rw [if_neg hb, noEmail_self rest (some c) hparts.2]




/-! ### List utilities for the scanner proofs -/

theorem all_of_takeWhile (p : Char → Bool) : ∀ (l : List Char), (l.takeWhile p).all p = true
  | [] => rfl
  | c :: rest => by
    rw [List.takeWhile_cons]
    by_cases h : p c = true
    · rw [if_pos h]
      simp [h, all_of_takeWhile p rest]
    · rw [if_neg h]
      rfl

theorem takeWhile_all_append (p : Char → Bool) : ∀ (a b : List Char),
    a.all p = true → (∀ c, b.head? = some c → p c = false) →
    (a ++ b).takeWhile p = a
  | [], b => fun _ hb => by
    cases b with
    | nil => rfl
    | cons c rest =>
      simp only [List.nil_append, List.takeWhile_cons]
      rw [hb c rfl]
      rfl
  | x :: a, b => fun ha hb => by
    have hx : p x = true := by simp at ha; exact ha.1
    have ha' : a.all p = true := by simp at ha; simp [List.all_eq_true]; exact ha.2
    simp only [List.cons_append, List.takeWhile_cons, hx, if_pos]
    rw [takeWhile_all_append p a b ha' hb]

theorem dropWhile_all_append (p : Char → Bool) : ∀ (a b : List Char),
    a.all p = true → (∀ c, b.head? = some c → p c = false) →
    (a ++ b).dropWhile p = b
  | [], b => fun _ hb => by
    cases b with
    | nil => rfl
    | cons c rest =>
      simp only [List.nil_append, List.dropWhile_cons]
      rw [hb c rfl]
      rfl
  | x :: a, b => fun ha hb => by
    have hx : p x = true := by simp at ha; exact ha.1
    have ha' : a.all p = true := by simp at ha; simp [List.all_eq_true]; exact ha.2
    simp only [List.cons_append, List.dropWhile_cons, hx, if_pos]
    rw [dropWhile_all_append p a b ha' hb]

theorem head?_dropWhile (p : Char → Bool) : ∀ (l : List Char) (c : Char),
    (l.dropWhile p).head? = some c → p c = false
  | [], c => by intro h; simp at h
  | x :: rest, c => by
    intro h
    rw [List.dropWhile_cons] at h
    by_cases hx : p x = true
    · rw [if_pos hx] at h
      exact head?_dropWhile p rest c h
    · rw [if_neg hx] at h
      simp at h
      rw [← h]
      exact Bool.of_not_eq_true hx

theorem boundary_eq_prevW (q : Option Char) (c : Char) :
    boundary q c = (prevW q != isWordChar c) := by
  cases q with
  | none => unfold boundary prevW; cases isWordChar c <;> rfl
  | some p => rfl

theorem boundary_congr {q q' : Option Char} (h : prevW q = prevW q') (c : Char) :
    boundary q c = boundary q' c := by
  rw [boundary_eq_prevW, boundary_eq_prevW, h]


/-! ### Characterization of the match lookaheads -/

theorem take_length_takeWhile (p : Char → Bool) : ∀ (l : List Char),
    l.take (l.takeWhile p).length = l.takeWhile p
  | [] => rfl
  | c :: rest => by
    rw [List.takeWhile_cons]
    by_cases h : p c = true
    · rw [if_pos h]
      simp only [List.length_cons, List.take_succ_cons]
      rw [take_length_takeWhile p rest]
    · rw [if_neg h]
      rfl

theorem envMatchLen_isSome_iff (c : Char) (rest : List Char) :
    (envMatchLen c rest).isSome = true ↔
      isUpperStart c = true ∧
        ∃ R B, rest = R ++ '=' :: B ∧ R.all isEnvRun = true := by
  constructor
  · intro h
    unfold envMatchLen at h
    by_cases hc : isUpperStart c = true
    · refine ⟨hc, rest.takeWhile isEnvRun, ?_⟩
      rw [if_pos hc] at h
      cases hd : rest.drop (rest.takeWhile isEnvRun).length with
      | nil => rw [hd] at h; simp at h
      | cons e tail =>
        rw [hd] at h
        by_cases he : e = '='
        · subst he
          refine ⟨tail, ?_, all_of_takeWhile isEnvRun rest⟩
          conv_lhs => rw [← List.take_append_drop (rest.takeWhile isEnvRun).length rest]
          rw [hd, take_length_takeWhile]
        · exfalso
          cases e
          all_goals simp_all
    · rw [if_neg hc] at h
      simp at h
  · rintro ⟨hc, R, B, hsplit, hall⟩
    unfold envMatchLen
    rw [if_pos hc]
    have ht : rest.takeWhile isEnvRun = R := by
      rw [hsplit]
      exact takeWhile_all_append isEnvRun R ('=' :: B) hall (by intro d hd; simp at hd; subst hd; rfl)
    have hlen : (rest.takeWhile isEnvRun).length = R.length := by rw [ht]
    have hd : rest.drop (rest.takeWhile isEnvRun).length = '=' :: B := by
      rw [hlen, hsplit, List.drop_left]
    rw [hd]
    simp


theorem not_digit_of_not_word {c : Char} (h : isWordChar c = false) : c.isDigit = false := by
  unfold isWordChar at h
  cases hd : c.isDigit
  · rfl
  · rw [hd] at h; simp at h

theorem ipGroup_eq_some_iff (s : List Char) (n : Nat) (r : List Char) :
    ipGroup s = some (n, r) ↔
      ∃ d, s = d ++ '.' :: r ∧ d.all Char.isDigit = true ∧
        1 ≤ d.length ∧ d.length ≤ 3 ∧ n = d.length + 1 := by
  constructor
  · intro h
    unfold ipGroup at h
    by_cases hif : (1 ≤ (s.takeWhile Char.isDigit).length
        && (s.takeWhile Char.isDigit).length ≤ 3) = true
    · rw [if_pos hif] at h
      cases hd : s.drop (s.takeWhile Char.isDigit).length with
      | nil => rw [hd] at h; simp at h
      | cons e tail =>
        rw [hd] at h
        by_cases he : e = '.'
        · subst he
          simp only [Option.some.injEq, Prod.mk.injEq] at h
          refine ⟨s.takeWhile Char.isDigit, ?_, all_of_takeWhile _ s, ?_, ?_, h.1.symm⟩
          · conv_lhs => rw [← List.take_append_drop (s.takeWhile Char.isDigit).length s]
            rw [hd, take_length_takeWhile, h.2]
          · simpa using (bandE hif).1
          · simpa using (bandE hif).2
        · exfalso; cases e; simp_all
    · rw [if_neg hif] at h
      simp at h
  · rintro ⟨d, hsplit, hall, h1, h3, hn⟩
    unfold ipGroup
    have ht : s.takeWhile Char.isDigit = d := by
      rw [hsplit]
      exact takeWhile_all_append _ d ('.' :: r) hall (by intro x hx; simp at hx; subst hx; rfl)
    have hd : s.drop (s.takeWhile Char.isDigit).length = '.' :: r := by
      rw [ht, hsplit, List.drop_left]
    rw [hd, if_pos (by rw [ht]; simp [h1, h3]), ht, hn]
    rfl

theorem ipTail_eq_some_iff (s : List Char) (n : Nat) :
    ipTail s = some n ↔
      ∃ d r, s = d ++ r ∧ d.all Char.isDigit = true ∧
        1 ≤ d.length ∧ d.length ≤ 3 ∧ n = d.length ∧
        (∀ c, r.head? = some c → isWordChar c = false) := by
  constructor
  · intro h
    unfold ipTail at h
    by_cases hif : (1 ≤ (s.takeWhile Char.isDigit).length
        && (s.takeWhile Char.isDigit).length ≤ 3) = true
    · rw [if_pos hif] at h
      refine ⟨s.takeWhile Char.isDigit, s.drop (s.takeWhile Char.isDigit).length,
        (by conv_lhs => rw [← List.take_append_drop (s.takeWhile Char.isDigit).length s,
              take_length_takeWhile]),
        all_of_takeWhile _ s, by simpa using (bandE hif).1, by simpa using (bandE hif).2, ?_, ?_⟩
      · cases hd : s.drop (s.takeWhile Char.isDigit).length with
        | nil => rw [hd] at h; simpa using h.symm
        | cons e tail =>
          rw [hd] at h
          have h2 : (if isWordChar e = true then (none : Option Nat)
              else some (s.takeWhile Char.isDigit).length) = some n := h
          by_cases hw : isWordChar e = true
          · rw [if_pos hw] at h2; simp at h2
          · rw [if_neg hw] at h2; simpa using h2.symm
      · intro c hc
        cases hd : s.drop (s.takeWhile Char.isDigit).length with
        | nil => rw [hd] at hc; simp at hc
        | cons e tail =>
          rw [hd] at h hc
          simp at hc
          subst hc
          have h2 : (if isWordChar e = true then (none : Option Nat)
              else some (s.takeWhile Char.isDigit).length) = some n := h
          by_cases hw : isWordChar e = true
          · rw [if_pos hw] at h2; simp at h2
          · exact Bool.of_not_eq_true hw
    · rw [if_neg hif] at h
      simp at h
  · rintro ⟨d, r, hsplit, hall, h1, h3, hn, hr⟩
    unfold ipTail
    have hrh : ∀ c, r.head? = some c → Char.isDigit c = false := by
      intro c hc
      exact not_digit_of_not_word (hr c hc)
    have ht : s.takeWhile Char.isDigit = d := by
      rw [hsplit]
      exact takeWhile_all_append _ d r hall hrh
    have hd : s.drop (s.takeWhile Char.isDigit).length = r := by
      rw [ht, hsplit, List.drop_left]
    rw [hd, if_pos (by rw [ht]; simp [h1, h3]), ht]
    cases r with
    | nil => rw [hn]
    | cons e tail =>
      show (if isWordChar e = true then (none : Option Nat) else some d.length) = some n
      rw [if_neg (by rw [hr e rfl]; simp), hn]

theorem ipFromStart_eq_some_iff (w : List Char) (m : Nat) :
    ipFromStart w = some m ↔ IpShape w m := by
  constructor
  · intro h
    unfold ipFromStart at h
    split at h
    · simp at h
    next n1 r1 h1 =>
      split at h
      · simp at h
      next n2 r2 h2 =>
        split at h
        · simp at h
        next n3 r3 h3 =>
          split at h
          · simp at h
          next n4 h4 =>
            simp only [Option.some.injEq] at h
            obtain ⟨d1, e1, a1, b1, c1, hn1⟩ := (ipGroup_eq_some_iff w n1 r1).mp h1
            obtain ⟨d2, e2, a2, b2, c2, hn2⟩ := (ipGroup_eq_some_iff r1 n2 r2).mp h2
            obtain ⟨d3, e3, a3, b3, c3, hn3⟩ := (ipGroup_eq_some_iff r2 n3 r3).mp h3
            obtain ⟨d4, r, e4, a4, b4, c4, hn4, hr⟩ := (ipTail_eq_some_iff r3 n4).mp h4
            refine ⟨d1, d2, d3, d4, r, ?_, a1, b1, c1, a2, b2, c2, a3, b3, c3, a4, b4, c4, ?_, hr⟩
            · rw [e1, e2, e3, e4]
            · omega
  · rintro ⟨d1, d2, d3, d4, r, hsplit, a1, b1, c1, a2, b2, c2, a3, b3, c3, a4, b4, c4, hm, hr⟩
    have g1 : ipGroup w = some (d1.length + 1, d2 ++ '.' :: (d3 ++ '.' :: (d4 ++ r))) :=
      (ipGroup_eq_some_iff w (d1.length + 1) _).mpr ⟨d1, hsplit, a1, b1, c1, rfl⟩
    have g2 : ipGroup (d2 ++ '.' :: (d3 ++ '.' :: (d4 ++ r))) =
        some (d2.length + 1, d3 ++ '.' :: (d4 ++ r)) :=
      (ipGroup_eq_some_iff _ (d2.length + 1) _).mpr ⟨d2, rfl, a2, b2, c2, rfl⟩
    have g3 : ipGroup (d3 ++ '.' :: (d4 ++ r)) = some (d3.length + 1, d4 ++ r) :=
      (ipGroup_eq_some_iff _ (d3.length + 1) _).mpr ⟨d3, rfl, a3, b3, c3, rfl⟩
    have g4 : ipTail (d4 ++ r) = some d4.length :=
      (ipTail_eq_some_iff _ d4.length).mpr ⟨d4, r, rfl, a4, b4, c4, rfl, hr⟩
    unfold ipFromStart
    simp only [g1, g2, g3, g4, Option.some.injEq]
    omega


theorem headOr_concat (a : List Char) (x : Char) (o : Option Char) :
    headOr (a ++ [x]) o = headOr a (some x) := by
  cases a <;> rfl

theorem head?_eq_headOr (a b : List Char) : (a ++ b).head? = headOr a b.head? := by
  cases a <;> rfl

theorem takeWhile_append_all (p : Char → Bool) : ∀ (a b : List Char),
    a.all p = true → (a ++ b).takeWhile p = a ++ b.takeWhile p
  | [], b => fun _ => rfl
  | x :: a, b => fun ha => by
    simp only [List.all_cons, Bool.and_eq_true] at ha
    simp only [List.cons_append, List.takeWhile_cons, ha.1, if_pos]
    rw [takeWhile_append_all p a b ha.2]

theorem dropWhile_append_all (p : Char → Bool) : ∀ (a b : List Char),
    a.all p = true → (a ++ b).dropWhile p = b.dropWhile p
  | [], b => fun _ => rfl
  | x :: a, b => fun ha => by
    simp only [List.all_cons, Bool.and_eq_true] at ha
    simp only [List.cons_append, List.dropWhile_cons, ha.1, if_pos]
    exact dropWhile_append_all p a b ha.2

theorem get?_append_length : ∀ (a b : List Char), (a ++ b).get? a.length = b.head?
  | [], b => by cases b <;> rfl
  | x :: a, b => by simpa using get?_append_length a b

theorem tldTakeRev_spec : ∀ (rr : List Char) (after : Option Char) (k : Nat),
    tldTakeRev rr after = some k →
    ∃ post last pre, rr = post ++ last :: pre ∧ k = pre.length + 1 ∧ 2 ≤ k ∧
      endBoundary last (headOr post.reverse after) = true
  | [], after, k => by intro h; simp [tldTakeRev] at h
  | last0 :: rrest, after, k => by
    intro h
    unfold tldTakeRev at h
    by_cases hc : (rrest.length + 1 ≥ 2 && endBoundary last0 after) = true
    · rw [if_pos hc] at h
      simp only [Option.some.injEq] at h
      refine ⟨[], last0, rrest, rfl, h.symm, ?_, ?_⟩
      · have := (bandE hc).1
        simp at this
        omega
      · exact (bandE hc).2
    · rw [if_neg hc] at h
      obtain ⟨post, last, pre, hsplit, hk, h2, hb⟩ := tldTakeRev_spec rrest (some last0) k h
      refine ⟨last0 :: post, last, pre, by rw [hsplit]; rfl, hk, h2, ?_⟩
      rw [List.reverse_cons, headOr_concat]
      exact hb

theorem tldTakeRev_exists : ∀ (post : List Char) (last : Char) (pre : List Char)
    (after : Option Char),
    2 ≤ pre.length + 1 → endBoundary last (headOr post.reverse after) = true →
    (tldTakeRev (post ++ last :: pre) after).isSome = true
  | [], last, pre, after => fun h2 hb => by
    show (tldTakeRev (last :: pre) after).isSome = true
    unfold tldTakeRev
    have hb2 : endBoundary last after = true := hb
    rw [if_pos (by rw [hb2, Bool.and_true]; exact decide_eq_true h2)]
    rfl
  | x :: post, last, pre, after => fun h2 hb => by
    show (tldTakeRev (x :: (post ++ last :: pre)) after).isSome = true
    unfold tldTakeRev
    by_cases hc : ((post ++ last :: pre).length + 1 ≥ 2 && endBoundary x after) = true
    · rw [if_pos hc]; rfl
    · rw [if_neg hc]
      refine tldTakeRev_exists post last pre (some x) h2 ?_
      rw [List.reverse_cons, headOr_concat] at hb
      exact hb

theorem domainSplit_spec (rest : List Char) : ∀ (j v : Nat), domainSplit rest j = some v →
    ∃ i k, 1 ≤ i ∧ i ≤ j ∧ rest.get? i = some '.' ∧
      tldAttempt (rest.drop (i+1)) = some k ∧ v = i + 1 + k
  | 0, v => by intro h; simp [domainSplit] at h
  | j+1, v => by
    intro h
    unfold domainSplit at h
    split at h
    next w hw =>
      simp only [Option.some.injEq] at h
      subst h
      by_cases hdot : rest.get? (j+1) = some '.'
      · rw [if_pos hdot] at hw
        cases ha : tldAttempt (rest.drop (j+2)) with
        | none => rw [ha] at hw; simp at hw
        | some k =>
          rw [ha] at hw
          simp only [Option.map_some', Option.some.injEq] at hw
          exact ⟨j+1, k, by omega, Nat.le_refl _, hdot, ha, hw.symm⟩
      · rw [if_neg hdot] at hw
        simp at hw
    next hw =>
      obtain ⟨i, k, h1, hj, hdot, ha, hv⟩ := domainSplit_spec rest j v h
      exact ⟨i, k, h1, Nat.le_succ_of_le hj, hdot, ha, hv⟩

theorem domainSplit_exists (rest : List Char) : ∀ (j i : Nat),
    1 ≤ i → i ≤ j → rest.get? i = some '.' →
    (tldAttempt (rest.drop (i+1))).isSome = true →
    (domainSplit rest j).isSome = true
  | 0, i => fun h1 hj _ _ => by omega
  | j+1, i => fun h1 hj hdot ha => by
    unfold domainSplit
    split
    next w hw => rfl
    next hw =>
      by_cases hij : i = j + 1
      · exfalso
        rw [hij] at hdot ha
        rw [if_pos hdot] at hw
        cases hta : tldAttempt (rest.drop (j+1+1)) with
        | none => rw [hta] at ha; simp at ha
        | some k => rw [hta] at hw; simp at hw
      · exact domainSplit_exists rest j i h1 (by omega) hdot ha


theorem all_take (p : Char → Bool) (l : List Char) (n : Nat) (h : l.all p = true) :
    (l.take n).all p = true :=
  List.all_eq_true.mpr (fun x hx => List.all_eq_true.mp h x (List.take_subset n l hx))

theorem take_of_le_takeWhile (p : Char → Bool) (l : List Char) (i : Nat)
    (h : i ≤ (l.takeWhile p).length) : (l.take i).all p = true := by
  have hsplit : l = l.takeWhile p ++ l.dropWhile p :=
    (List.takeWhile_append_dropWhile (p := p) (l := l)).symm
  have : l.take i = (l.takeWhile p).take i := by
    conv_lhs => rw [hsplit]
    rw [List.take_append_eq_append_take, Nat.sub_eq_zero_of_le h, List.take_zero,
      List.append_nil]
  rw [this]
  exact all_take p _ i (all_of_takeWhile p l)

theorem drop_split_at_get? (l : List Char) (i : Nat) (c : Char) (h : l.get? i = some c) :
    l = l.take i ++ c :: l.drop (i+1) := by
  have hlt : i < l.length := by
    by_contra hge
    rw [List.get?_eq_none.mpr (by omega)] at h
    simp at h
  conv_lhs => rw [← List.take_append_drop i l]
  congr 1
  rw [List.drop_eq_getElem_cons hlt]
  congr 1
  rw [List.get?_eq_getElem? ] at h
  rw [List.getElem?_eq_getElem hlt] at h
  simpa using h

theorem emailFromStart_shape (w : List Char) (m : Nat)
    (hw : emailFromStart w = some m)
    (hhead : ∃ c w2, w = c :: w2 ∧ isLocalChar c = true) :
    EmailShape w m := by
  unfold emailFromStart at hw
  split at hw
  case h_2 => simp at hw
  case h_1 rest heq =>
    cases hds : domainSplit rest ((rest.takeWhile isDomainChar).length - 1) with
    | none => rw [hds] at hw; simp at hw
    | some v =>
      rw [hds] at hw
      simp only [Option.map_some', Option.some.injEq] at hw
      obtain ⟨i, k, h1i, hij, hdot, hta, hv⟩ :=
        domainSplit_spec rest ((rest.takeWhile isDomainChar).length - 1) v hds
      obtain ⟨L, hL⟩ : ∃ L, w.takeWhile isLocalChar = L := ⟨_, rfl⟩
      obtain ⟨DD, hDD⟩ : ∃ DD, rest.take i = DD := ⟨_, rfl⟩
      have hlne : L ≠ [] := by
        obtain ⟨c, w2, hw2, hc⟩ := hhead
        rw [← hL, hw2, List.takeWhile_cons, if_pos hc]
        simp
      have hsplitw : w = L ++ '@' :: rest := by
        conv_lhs => rw [← List.take_append_drop (w.takeWhile isLocalChar).length w,
          take_length_takeWhile]
        rw [heq, hL]
      have hdall : DD.all isDomainChar = true := by
        rw [← hDD]
        exact take_of_le_takeWhile isDomainChar rest i (Nat.le_trans hij (Nat.sub_le _ _))
      have hilt : i < rest.length := by
        by_contra hge
        rw [List.get?_eq_none.mpr (by omega)] at hdot
        simp at hdot
      have hdlen : DD.length = i := by
        rw [← hDD, List.length_take]
        omega
      have hdne : DD ≠ [] := by
        intro hnil
        rw [hnil] at hdlen
        simp at hdlen
        omega
      have hrest : rest = DD ++ '.' :: rest.drop (i+1) := by
        rw [← hDD]
        exact drop_split_at_get? rest i '.' hdot
      -- the tld part
      unfold tldAttempt at hta
      obtain ⟨D, hD⟩ : ∃ D, (rest.drop (i+1)).drop
          ((rest.drop (i+1)).takeWhile isTldChar).length = D := ⟨_, rfl⟩
      rw [hD] at hta
      obtain ⟨post, last, pre, hrr, hk, hk2, hb⟩ :=
        tldTakeRev_spec ((rest.drop (i+1)).takeWhile isTldChar).reverse D.head? k hta
      have htrun : (rest.drop (i+1)).takeWhile isTldChar =
          (pre.reverse ++ [last]) ++ post.reverse := by
        have := congrArg List.reverse hrr
        rw [List.reverse_reverse] at this
        rw [this]
        simp
      have htail2 : rest.drop (i+1) =
          (pre.reverse ++ [last]) ++ (post.reverse ++ D) := by
        conv_lhs => rw [← List.take_append_drop ((rest.drop (i+1)).takeWhile isTldChar).length
          (rest.drop (i+1)), take_length_takeWhile]
        rw [hD, htrun, List.append_assoc]
      have htall : (pre.reverse ++ [last]).all isTldChar = true := by
        have h1 := all_of_takeWhile isTldChar (rest.drop (i+1))
        rw [htrun, List.all_append] at h1
        exact (bandE h1).1
      have hrest2 : rest = DD ++ '.' :: ((pre.reverse ++ [last]) ++ (post.reverse ++ D)) :=
        hrest.trans (by rw [htail2])
      refine ⟨L, DD, pre.reverse ++ [last], post.reverse ++ D,
        last, ?_, hlne, by rw [← hL]; exact all_of_takeWhile isLocalChar w,
        hdne, hdall, htall, ?_, ?_, ?_, ?_⟩
      · rw [hsplitw, hrest2]
      · simp
        omega
      · rw [List.getLast?_concat]
      · rw [head?_eq_headOr]
        exact hb
      · rw [← hw, hv, hdlen, ← hL]
        simp
        omega


theorem drop_append_cons_length (d : List Char) (c : Char) (x : List Char) :
    (d ++ c :: x).drop (d.length + 1) = x := by
  have : d ++ c :: x = (d ++ [c]) ++ x := by simp
  rw [this]
  have hlen : (d ++ [c]).length = d.length + 1 := by simp
  rw [← hlen, List.drop_left]

theorem emailShape_isSome (w : List Char) (m : Nat) (h : EmailShape w m) :
    (emailFromStart w).isSome = true := by
  obtain ⟨l, d, t, r, tlast, hsplit, hlne, hlall, hdne, hdall, htall, ht2, hlast, hb, hm⟩ := h
  have htake : w.takeWhile isLocalChar = l := by
    rw [hsplit]
    exact takeWhile_all_append isLocalChar l _ hlall
      (by intro c hc; simp at hc; subst hc; rfl)
  have hdrop : w.drop (w.takeWhile isLocalChar).length = '@' :: (d ++ '.' :: (t ++ r)) := by
    rw [htake, hsplit, List.drop_left]
  unfold emailFromStart
  rw [hdrop]
  show (Option.map (fun v => (List.takeWhile isLocalChar w).length + 1 + v)
      (domainSplit (d ++ '.' :: (t ++ r))
        (((d ++ '.' :: (t ++ r)).takeWhile isDomainChar).length - 1))).isSome = true
  rw [show ∀ (o : Option Nat) (f : Nat → Nat), (o.map f).isSome = o.isSome from
    fun o f => by cases o <;> rfl]
  -- the domain run extends at least past d and the dot
  have hrun : (d ++ '.' :: (t ++ r)).takeWhile isDomainChar =
      d ++ ('.' :: (t ++ r)).takeWhile isDomainChar := takeWhile_append_all isDomainChar d _ hdall
  have hrunlen : d.length + 1 ≤ ((d ++ '.' :: (t ++ r)).takeWhile isDomainChar).length := by
    rw [hrun, List.length_append]
    have : ('.' :: (t ++ r)).takeWhile isDomainChar =
        '.' :: (t ++ r).takeWhile isDomainChar := by
      rw [List.takeWhile_cons, if_pos (by decide)]
    rw [this]
    simp
  apply domainSplit_exists _ _ d.length (by
      cases d with
      | nil => exact absurd rfl hdne
      | cons e tl => simp)
    (by omega)
    (by rw [get?_append_length]; rfl)
  -- the tld attempt succeeds
  have hdrop2 : (d ++ '.' :: (t ++ r)).drop (d.length + 1) = t ++ r :=
    drop_append_cons_length d '.' (t ++ r)
  rw [hdrop2]
  unfold tldAttempt
  have htne : t ≠ [] := by
    intro hnil
    rw [hnil] at ht2
    simp at ht2
  have htdecomp : t = t.dropLast ++ [tlast] := by
    have hgl : t.getLast htne = tlast := by
      rw [List.getLast?_eq_getLast t htne] at hlast
      simpa using hlast
    rw [← hgl]
    exact (List.dropLast_append_getLast htne).symm
  have htrun : (t ++ r).takeWhile isTldChar = t ++ r.takeWhile isTldChar :=
    takeWhile_append_all isTldChar t r htall
  have hafter : ((t ++ r).drop ((t ++ r).takeWhile isTldChar).length).head? =
      (r.drop (r.takeWhile isTldChar).length).head? := by
    rw [htrun, List.length_append, ← List.drop_drop, List.drop_left]
  rw [hafter]
  -- build the decomposition for tldTakeRev_exists
  have hrev : ((t ++ r).takeWhile isTldChar).reverse =
      (r.takeWhile isTldChar).reverse ++ tlast :: (t.dropLast).reverse := by
    rw [htrun]
    conv_lhs => rw [htdecomp]
    simp
  rw [hrev]
  apply tldTakeRev_exists
  · have : t.dropLast.length = t.length - 1 := List.length_dropLast t
    simp only [List.length_reverse, this]
    omega
  · rw [List.reverse_reverse]
    have hctx : headOr (r.takeWhile isTldChar)
        (r.drop (r.takeWhile isTldChar).length).head? = r.head? := by
      cases r with
      | nil => rfl
      | cons x rest =>
        rw [List.takeWhile_cons]
        by_cases hx : isTldChar x = true
        · rw [if_pos hx]
          rfl
        · rw [if_neg hx]
          rfl
    rw [hctx]
    exact hb


/-! ### Scanner structure lemmas -/

theorem envAux_cons_none {c : Char} {rest : List Char} (h : envMatchLen c rest = none) :
    envAux 0 (c :: rest) = c :: envAux 0 rest := by
  show (match envMatchLen c rest with
        | some m => "[REDACTED]".data ++ envAux m rest
        | none => c :: envAux 0 rest) = c :: envAux 0 rest
  rw [h]

theorem envAux_cons_some {c : Char} {rest : List Char} {m : Nat}
    (h : envMatchLen c rest = some m) :
    envAux 0 (c :: rest) = "[REDACTED]".data ++ envAux 0 (rest.drop m) := by
  show (match envMatchLen c rest with
        | some m => "[REDACTED]".data ++ envAux m rest
        | none => c :: envAux 0 rest) = _
  rw [h]
  show "[REDACTED]".data ++ envAux m rest = _
  rw [envAux_skip]

theorem ipAux_cons_copy {p : Option Char} {c : Char} {rest : List Char}
    (h : (boundary p c && c.isDigit) = false ∨ ipFromStart (c :: rest) = none) :
    ipAux p 0 (c :: rest) = c :: ipAux (some c) 0 rest := by
  show (if boundary p c && c.isDigit then
          match ipFromStart (c :: rest) with
          | some m => "[IP_ADDRESS]".data ++ ipAux (some c) (m - 1) rest
          | none => c :: ipAux (some c) 0 rest
        else c :: ipAux (some c) 0 rest) = _
  rcases h with h | h
  · rw [h]
    rfl
  · by_cases hb : (boundary p c && c.isDigit) = true
    · rw [if_pos hb, h]
    · rw [if_neg hb]

theorem ipAux_cons_some {p : Option Char} {c : Char} {rest : List Char} {m : Nat}
    (hb : (boundary p c && c.isDigit) = true) (h : ipFromStart (c :: rest) = some m) :
    ipAux p 0 (c :: rest) =
      "[IP_ADDRESS]".data ++
        ipAux (prevThrough (some c) (rest.take (m - 1))) 0 (rest.drop (m - 1)) := by
  show (if boundary p c && c.isDigit then
          match ipFromStart (c :: rest) with
          | some m => "[IP_ADDRESS]".data ++ ipAux (some c) (m - 1) rest
          | none => c :: ipAux (some c) 0 rest
        else c :: ipAux (some c) 0 rest) = _
  rw [if_pos hb, h]
  show "[IP_ADDRESS]".data ++ ipAux (some c) (m - 1) rest = _
  rw [ipAux_skip]

theorem emailAux_cons_copy {p : Option Char} {c : Char} {rest : List Char}
    (h : (boundary p c && isLocalChar c) = false ∨ emailFromStart (c :: rest) = none) :
    emailAux p 0 (c :: rest) = c :: emailAux (some c) 0 rest := by
  show (if boundary p c && isLocalChar c then
          match emailFromStart (c :: rest) with
          | some m => "[EMAIL]".data ++ emailAux (some c) (m - 1) rest
          | none => c :: emailAux (some c) 0 rest
        else c :: emailAux (some c) 0 rest) = _
  rcases h with h | h
  · rw [h]
    rfl
  · by_cases hb : (boundary p c && isLocalChar c) = true
    · rw [if_pos hb, h]
    · rw [if_neg hb]

theorem emailAux_cons_some {p : Option Char} {c : Char} {rest : List Char} {m : Nat}
    (hb : (boundary p c && isLocalChar c) = true) (h : emailFromStart (c :: rest) = some m) :
    emailAux p 0 (c :: rest) =
      "[EMAIL]".data ++
        emailAux (prevThrough (some c) (rest.take (m - 1))) 0 (rest.drop (m - 1)) := by
  show (if boundary p c && isLocalChar c then
          match emailFromStart (c :: rest) with
          | some m => "[EMAIL]".data ++ emailAux (some c) (m - 1) rest
          | none => c :: emailAux (some c) 0 rest
        else c :: emailAux (some c) 0 rest) = _
  rw [if_pos hb, h]
  show "[EMAIL]".data ++ emailAux (some c) (m - 1) rest = _
  rw [emailAux_skip]

theorem envAux_eq_nil : ∀ {v : List Char}, envAux 0 v = [] → v = []
  | [], _ => rfl
  | c :: rest, h => by
    cases hm : envMatchLen c rest with
    | none => rw [envAux_cons_none hm] at h; simp at h
    | some m => rw [envAux_cons_some hm] at h; simp at h

theorem ipAux_eq_nil : ∀ {p : Option Char} {v : List Char}, ipAux p 0 v = [] → v = []
  | _, [], _ => rfl
  | p, c :: rest, h => by
    by_cases hb : (boundary p c && c.isDigit) = true
    · cases hm : ipFromStart (c :: rest) with
      | none => rw [ipAux_cons_copy (Or.inr hm)] at h; simp at h
      | some m => rw [ipAux_cons_some hb hm] at h; simp at h
    · rw [ipAux_cons_copy (Or.inl (by simpa using hb))] at h
      simp at h

theorem emailAux_eq_nil : ∀ {p : Option Char} {v : List Char}, emailAux p 0 v = [] → v = []
  | _, [], _ => rfl
  | p, c :: rest, h => by
    by_cases hb : (boundary p c && isLocalChar c) = true
    · cases hm : emailFromStart (c :: rest) with
      | none => rw [emailAux_cons_copy (Or.inr hm)] at h; simp at h
      | some m => rw [emailAux_cons_some hb hm] at h; simp at h
    · rw [emailAux_cons_copy (Or.inl (by simpa using hb))] at h
      simp at h


theorem pathAux_cons_slash (rest : List Char) :
    pathAux 0 ('/' :: rest) =
      "/[REDACTED]".data ++ pathAux 0 (rest.drop (pathMatchLen rest)) := by
  show (if ('/' : Char) = '/' then "/[REDACTED]".data ++ pathAux (pathMatchLen rest) rest
        else '/' :: pathAux 0 rest) = _
  rw [if_pos rfl, pathAux_skip]

theorem pathAux_cons_other {c : Char} (rest : List Char) (h : c ≠ '/') :
    pathAux 0 (c :: rest) = c :: pathAux 0 rest := by
  show (if c = '/' then "/[REDACTED]".data ++ pathAux (pathMatchLen rest) rest
        else c :: pathAux 0 rest) = _
  rw [if_neg h]

theorem pathAux_head? : ∀ (v : List Char), (pathAux 0 v).head? = v.head?
  | [] => rfl
  | c :: rest => by
    by_cases hc : c = '/'
    · subst hc
      rw [pathAux_cons_slash]
      rfl
    · rw [pathAux_cons_other rest hc]
      rfl

/-- The head of an email-scanner output is either the copied input head
or the opening bracket of a marker produced by a match at the very
start. -/
theorem emailAux_head? (p : Option Char) (v : List Char) :
    (emailAux p 0 v).head? = v.head? ∨
      ((emailAux p 0 v).head? = some '[' ∧
        ∃ c rest m, v = c :: rest ∧ (boundary p c && isLocalChar c) = true ∧
          emailFromStart (c :: rest) = some m) := by
  cases v with
  | nil => exact Or.inl rfl
  | cons c rest =>
    by_cases hb : (boundary p c && isLocalChar c) = true
    · cases hm : emailFromStart (c :: rest) with
      | none => rw [emailAux_cons_copy (Or.inr hm)]; exact Or.inl rfl
      | some m =>
        rw [emailAux_cons_some hb hm]
        exact Or.inr ⟨rfl, c, rest, m, rfl, hb, hm⟩
    · rw [emailAux_cons_copy (Or.inl (by simpa using hb))]
      exact Or.inl rfl

theorem ipAux_head? (p : Option Char) (v : List Char) :
    (ipAux p 0 v).head? = v.head? ∨
      ((ipAux p 0 v).head? = some '[' ∧
        ∃ c rest m, v = c :: rest ∧ (boundary p c && c.isDigit) = true ∧
          ipFromStart (c :: rest) = some m) := by
  cases v with
  | nil => exact Or.inl rfl
  | cons c rest =>
    by_cases hb : (boundary p c && c.isDigit) = true
    · cases hm : ipFromStart (c :: rest) with
      | none => rw [ipAux_cons_copy (Or.inr hm)]; exact Or.inl rfl
      | some m =>
        rw [ipAux_cons_some hb hm]
        exact Or.inr ⟨rfl, c, rest, m, rfl, hb, hm⟩
    · rw [ipAux_cons_copy (Or.inl (by simpa using hb))]
      exact Or.inl rfl

theorem envAux_head? (v : List Char) :
    (envAux 0 v).head? = v.head? ∨
      ((envAux 0 v).head? = some '[' ∧
        ∃ c rest m, v = c :: rest ∧ envMatchLen c rest = some m) := by
  cases v with
  | nil => exact Or.inl rfl
  | cons c rest =>
    cases hm : envMatchLen c rest with
    | none => rw [envAux_cons_none hm]; exact Or.inl rfl
    | some m =>
      rw [envAux_cons_some hm]
      exact Or.inr ⟨rfl, c, rest, m, rfl, hm⟩

/-! ### Prefix pull-back: a marker-free prefix of a scanner output is a
copied prefix of the input. -/

theorem envAux_pullback : ∀ (a : List Char) (v b : List Char),
    envAux 0 v = a ++ b → (∀ x ∈ a, x ≠ '[') →
    ∃ v2, v = a ++ v2 ∧ envAux 0 v2 = b
  | [], v, b => fun h _ => ⟨v, rfl, h⟩
  | x :: a, v, b => fun h hx => by
    cases v with
    | nil => simp [envAux] at h
    | cons c rest =>
      cases hm : envMatchLen c rest with
      | none =>
        rw [envAux_cons_none hm] at h
        simp only [List.cons_append, List.cons.injEq] at h
        obtain ⟨v2, hv2, hb⟩ := envAux_pullback a rest b h.2 (fun y hy => hx y (by simp [hy]))
        exact ⟨v2, by rw [← h.1, hv2, List.cons_append], hb⟩
      | some m =>
        exfalso
        rw [envAux_cons_some hm] at h
        have : x = '[' := by
          have := congrArg List.head? h
          simpa using this.symm
        exact hx x (by simp) this

theorem ipAux_pullback : ∀ (a : List Char) (p : Option Char) (v b : List Char),
    ipAux p 0 v = a ++ b → (∀ x ∈ a, x ≠ '[') →
    ∃ v2, v = a ++ v2 ∧ ipAux (prevThrough p a) 0 v2 = b
  | [], p, v, b => fun h _ => ⟨v, rfl, h⟩
  | x :: a, p, v, b => fun h hx => by
    cases v with
    | nil => simp [ipAux] at h
    | cons c rest =>
      by_cases hb : (boundary p c && c.isDigit) = true
      · cases hm : ipFromStart (c :: rest) with
        | none =>
          rw [ipAux_cons_copy (Or.inr hm)] at h
          simp only [List.cons_append, List.cons.injEq] at h
          obtain ⟨v2, hv2, hres⟩ :=
            ipAux_pullback a (some c) rest b h.2 (fun y hy => hx y (by simp [hy]))
          refine ⟨v2, by rw [← h.1, hv2, List.cons_append], ?_⟩
          rw [← h.1, prevThrough_cons]
          exact hres
        | some m =>
          exfalso
          rw [ipAux_cons_some hb hm] at h
          have : x = '[' := by
            have := congrArg List.head? h
            simpa using this.symm
          exact hx x (by simp) this
      · rw [ipAux_cons_copy (Or.inl (by simpa using hb))] at h
        simp only [List.cons_append, List.cons.injEq] at h
        obtain ⟨v2, hv2, hres⟩ :=
          ipAux_pullback a (some c) rest b h.2 (fun y hy => hx y (by simp [hy]))
        refine ⟨v2, by rw [← h.1, hv2, List.cons_append], ?_⟩
        rw [← h.1, prevThrough_cons]
        exact hres

theorem emailAux_pullback : ∀ (a : List Char) (p : Option Char) (v b : List Char),
    emailAux p 0 v = a ++ b → (∀ x ∈ a, x ≠ '[') →
    ∃ v2, v = a ++ v2 ∧ emailAux (prevThrough p a) 0 v2 = b
  | [], p, v, b => fun h _ => ⟨v, rfl, h⟩
  | x :: a, p, v, b => fun h hx => by
    cases v with
    | nil => simp [emailAux] at h
    | cons c rest =>
      by_cases hb : (boundary p c && isLocalChar c) = true
      · cases hm : emailFromStart (c :: rest) with
        | none =>
          rw [emailAux_cons_copy (Or.inr hm)] at h
          simp only [List.cons_append, List.cons.injEq] at h
          obtain ⟨v2, hv2, hres⟩ :=
            emailAux_pullback a (some c) rest b h.2 (fun y hy => hx y (by simp [hy]))
          refine ⟨v2, by rw [← h.1, hv2, List.cons_append], ?_⟩
          rw [← h.1, prevThrough_cons]
          exact hres
        | some m =>
          exfalso
          rw [emailAux_cons_some hb hm] at h
          have : x = '[' := by
            have := congrArg List.head? h
            simpa using this.symm
          exact hx x (by simp) this
      · rw [emailAux_cons_copy (Or.inl (by simpa using hb))] at h
        simp only [List.cons_append, List.cons.injEq] at h
        obtain ⟨v2, hv2, hres⟩ :=
          emailAux_pullback a (some c) rest b h.2 (fun y hy => hx y (by simp [hy]))
        refine ⟨v2, by rw [← h.1, hv2, List.cons_append], ?_⟩
        rw [← h.1, prevThrough_cons]
        exact hres


/-! ### Generic list utilities for the junction analysis. -/

theorem drop_length_takeWhile (p : Char → Bool) :
    ∀ l : List Char, l.drop (l.takeWhile p).length = l.dropWhile p
  | [] => rfl
  | c :: rest => by
    rw [List.takeWhile_cons, List.dropWhile_cons]
    by_cases h : p c = true
    · rw [if_pos h, if_pos h]
      simp only [List.length_cons, List.drop_succ_cons]
      exact drop_length_takeWhile p rest
    · rw [if_neg h, if_neg h]
      rfl

theorem eq_cons_of_head? {l : List Char} {c : Char} (h : l.head? = some c) :
    ∃ t, l = c :: t := by
  cases l with
  | nil => simp at h
  | cons x t =>
    simp only [List.head?_cons, Option.some.injEq] at h
    exact ⟨t, by rw [h]⟩

theorem getLast?_some_of_ne_nil : ∀ (l : List Char), l ≠ [] → ∃ z, l.getLast? = some z
  | [], h => absurd rfl h
  | [x], _ => ⟨x, rfl⟩
  | x :: y :: t, _ => by
    obtain ⟨z, hz⟩ := getLast?_some_of_ne_nil (y :: t) (by simp)
    exact ⟨z, by rw [List.getLast?_cons_cons]; exact hz⟩

theorem getLast?_append_some {z : Char} : ∀ (a b : List Char), b.getLast? = some z →
    (a ++ b).getLast? = some z
  | [], _, h => h
  | x :: a, b, h => by
    have ih := getLast?_append_some a b h
    cases ha : a ++ b with
    | nil => rw [ha] at ih; simp at ih
    | cons y t =>
      rw [List.cons_append, ha, List.getLast?_cons_cons, ← ha]
      exact ih

theorem getLast?_all {p : Char → Bool} : ∀ {l : List Char} {z : Char},
    l.getLast? = some z → l.all p = true → p z = true
  | [], _, h, _ => by simp at h
  | [x], z, h, ha => by
    have hx : x = z := by simpa using h
    subst hx
    simpa using ha
  | x :: y :: t, z, h, ha => by
    rw [List.getLast?_cons_cons] at h
    have ha2 : (p x && (y :: t).all p) = true := ha
    exact getLast?_all h (bandE ha2).2

theorem dropWhile_append_of_stop (p : Char → Bool) : ∀ (a b : List Char) {d : Char}
    {a2 : List Char}, a.dropWhile p = d :: a2 → (a ++ b).dropWhile p = d :: (a2 ++ b)
  | [], _, _, _, h => by simp at h
  | x :: a, b, d, a2, h => by
    rw [List.dropWhile_cons] at h
    rw [List.cons_append, List.dropWhile_cons]
    by_cases hx : p x = true
    · rw [if_pos hx] at h
      rw [if_pos hx]
      exact dropWhile_append_of_stop p a b h
    · rw [if_neg hx] at h
      rw [if_neg hx]
      simp only [List.cons.injEq] at h
      rw [h.1, h.2]

/-! ### Character-class facts. -/

theorem borE {a b : Bool} (h : (a || b) = true) : a = true ∨ b = true := by
  cases a <;> cases b <;> simp_all

theorem word_of_upperStart {c : Char} (h : isUpperStart c = true) : isWordChar c = true := by
  unfold isUpperStart at h
  unfold isWordChar
  rcases borE h with hr | hu
  · have hup : c.isUpper = true := hr
    simp [Char.isAlpha, hup]
  · simp [hu]

theorem word_of_envRun {c : Char} (h : isEnvRun c = true) : isWordChar c = true := by
  unfold isEnvRun at h
  rcases borE h with hu | hd
  · exact word_of_upperStart hu
  · unfold isWordChar
    simp [hd]

theorem not_digit_of_not_envRun {d : Char} (h : isEnvRun d = false) : d.isDigit = false := by
  unfold isEnvRun at h
  simp only [Bool.or_eq_false_iff] at h
  exact h.2

theorem stop_cases {s : Char} (h : isPathStop s = true) :
    s = ':' ∨ s = '\t' ∨ s = '\n' ∨ s = Char.ofNat 12 ∨ s = '\r' ∨ s = ' ' := by
  unfold isPathStop isRESpace at h
  simp only [Bool.or_eq_true, decide_eq_true_eq] at h
  tauto

theorem stop_not_upper {s : Char} (h : isPathStop s = true) : isUpperStart s = false := by
  rcases stop_cases h with h | h | h | h | h | h <;> subst h <;> decide

theorem stop_not_local {s : Char} (h : isPathStop s = true) : isLocalChar s = false := by
  rcases stop_cases h with h | h | h | h | h | h <;> subst h <;> decide

theorem stop_not_digit {s : Char} (h : isPathStop s = true) : s.isDigit = false := by
  rcases stop_cases h with h | h | h | h | h | h <;> subst h <;> decide

theorem digit_ne_bracket {x : Char} (h : x.isDigit = true) : x ≠ '[' := by
  intro e
  subst e
  exact absurd h (by decide)

theorem local_ne_bracket {x : Char} (h : isLocalChar x = true) : x ≠ '[' := by
  intro e
  subst e
  exact absurd h (by decide)

theorem domain_ne_bracket {x : Char} (h : isDomainChar x = true) : x ≠ '[' := by
  intro e
  subst e
  exact absurd h (by decide)

theorem tld_ne_bracket {x : Char} (h : isTldChar x = true) : x ≠ '[' := by
  intro e
  subst e
  exact absurd h (by decide)


/-! ### Context-free blocking of the environment-variable matcher. -/

theorem envMatchLen_not_upper {c : Char} (h : isUpperStart c = false) (rest : List Char) :
    envMatchLen c rest = none := by
  unfold envMatchLen
  rw [if_neg (by simp [h])]

theorem envMatchLen_blocked {c d : Char} {a a2 : List Char}
    (ha : a.dropWhile isEnvRun = d :: a2) (hd : d ≠ '=') (b : List Char) :
    envMatchLen c (a ++ b) = none := by
  by_cases hc : isUpperStart c = true
  · have hdw : (a ++ b).dropWhile isEnvRun = d :: (a2 ++ b) :=
      dropWhile_append_of_stop isEnvRun a b ha
    unfold envMatchLen
    rw [if_pos hc, drop_length_takeWhile, hdw]
    split
    next tail heq =>
      injection heq with h1 h2
      exact absurd h1 hd
    next => rfl
  · exact envMatchLen_not_upper (Bool.of_not_eq_true hc) _

theorem envBlockedAt_none {c : Char} {a : List Char} (h : envBlockedAt c a = true)
    (b : List Char) : envMatchLen c (a ++ b) = none := by
  unfold envBlockedAt at h
  cases hu : isUpperStart c with
  | false => exact envMatchLen_not_upper hu _
  | true =>
    rw [hu] at h
    have h2 : (match a.dropWhile isEnvRun with
               | d :: _ => d != '='
               | [] => false) = true := by simpa using h
    cases hdw : a.dropWhile isEnvRun with
    | nil => rw [hdw] at h2; simp at h2
    | cons d a2 =>
      rw [hdw] at h2
      exact envMatchLen_blocked hdw (by simpa using h2) b

theorem envAux_blocked_append : ∀ (a : List Char), envBlocked a = true → ∀ (b : List Char),
    envAux 0 (a ++ b) = a ++ envAux 0 b
  | [], _, _ => rfl
  | c :: a, h, b => by
    have hp := bandE (show (envBlockedAt c a && envBlocked a) = true from h)
    have hnone : envMatchLen c (a ++ b) = none := envBlockedAt_none hp.1 b
    rw [List.cons_append, envAux_cons_none hnone, envAux_blocked_append a hp.2 b,
      List.cons_append]

theorem noEnv_blocked_append : ∀ (a : List Char), envBlocked a = true → ∀ (b : List Char),
    noEnv (a ++ b) = noEnv b
  | [], _, _ => rfl
  | c :: a, h, b => by
    have hp := bandE (show (envBlockedAt c a && envBlocked a) = true from h)
    have hnone : envMatchLen c (a ++ b) = none := envBlockedAt_none hp.1 b
    show ((envMatchLen c (a ++ b)).isNone && noEnv (a ++ b)) = noEnv b
    rw [hnone, noEnv_blocked_append a hp.2 b]
    rfl

/-! ### Context-free blocking of the email matcher. -/

theorem emailFromStart_blocked {c : Char} {a : List Char} (h : emailBlockedAt c a = true)
    (b : List Char) : emailFromStart ((c :: a) ++ b) = none := by
  unfold emailBlockedAt at h
  cases hdw : (c :: a).dropWhile isLocalChar with
  | nil => rw [hdw] at h; simp at h
  | cons d a2 =>
    rw [hdw] at h
    have hdne : d ≠ '@' := by simpa using h
    have hdw2 : ((c :: a) ++ b).dropWhile isLocalChar = d :: (a2 ++ b) :=
      dropWhile_append_of_stop isLocalChar (c :: a) b hdw
    unfold emailFromStart
    rw [drop_length_takeWhile, hdw2]
    split
    next tail heq =>
      injection heq with h1 h2
      exact absurd h1 hdne
    next => rfl

theorem emailAux_blocked_append : ∀ (a : List Char), emailBlocked a = true →
    ∀ (p : Option Char) (b : List Char),
    emailAux p 0 (a ++ b) = a ++ emailAux (prevThrough p a) 0 b
  | [], _, _, _ => rfl
  | c :: a, h, p, b => by
    have hp := bandE (show (emailBlockedAt c a && emailBlocked a) = true from h)
    have hnone : emailFromStart (c :: (a ++ b)) = none := emailFromStart_blocked hp.1 b
    rw [List.cons_append, emailAux_cons_copy (Or.inr hnone),
      emailAux_blocked_append a hp.2 (some c) b, prevThrough_cons, List.cons_append]

theorem noEmail_blocked_append : ∀ (a : List Char), emailBlocked a = true →
    ∀ (p : Option Char) (b : List Char),
    noEmail p (a ++ b) = noEmail (prevThrough p a) b
  | [], _, _, _ => rfl
  | c :: a, h, p, b => by
    have hp := bandE (show (emailBlockedAt c a && emailBlocked a) = true from h)
    have hnone : emailFromStart (c :: (a ++ b)) = none := emailFromStart_blocked hp.1 b
    show ((!(boundary p c && isLocalChar c && (emailFromStart (c :: (a ++ b))).isSome))
        && noEmail (some c) (a ++ b)) = _
    rw [hnone, noEmail_blocked_append a hp.2 (some c) b, prevThrough_cons]
    simp

/-! ### Copy lemmas: regions the IPv4 and email scanners pass through. -/

theorem ipAux_nodigit_append : ∀ (a : List Char), a.all (fun c => !c.isDigit) = true →
    ∀ (p : Option Char) (b : List Char), ipAux p 0 (a ++ b) = a ++ ipAux (prevThrough p a) 0 b
  | [], _, _, _ => rfl
  | c :: a, h, p, b => by
    have hp := bandE (show ((!c.isDigit) && a.all (fun c => !c.isDigit)) = true from h)
    have hc : c.isDigit = false := by simpa using hp.1
    rw [List.cons_append, ipAux_cons_copy (Or.inl (by simp [hc])),
      ipAux_nodigit_append a hp.2 (some c) b, prevThrough_cons, List.cons_append]

theorem noIp_nodigit_append : ∀ (a : List Char), a.all (fun c => !c.isDigit) = true →
    ∀ (p : Option Char) (b : List Char), noIp p (a ++ b) = noIp (prevThrough p a) b
  | [], _, _, _ => rfl
  | c :: a, h, p, b => by
    have hp := bandE (show ((!c.isDigit) && a.all (fun c => !c.isDigit)) = true from h)
    have hc : c.isDigit = false := by simpa using hp.1
    show ((!(boundary p c && c.isDigit && (ipFromStart (c :: (a ++ b))).isSome))
        && noIp (some c) (a ++ b)) = _
    rw [hc, noIp_nodigit_append a hp.2 (some c) b, prevThrough_cons]
    simp

theorem ipAux_wordlock : ∀ (a : List Char) (p : Option Char), prevW p = true →
    a.all isWordChar = true → ∀ (b : List Char),
    ipAux p 0 (a ++ b) = a ++ ipAux (prevThrough p a) 0 b
  | [], _, _, _, _ => rfl
  | c :: a, p, hp, ha, b => by
    have hparts := bandE (show (isWordChar c && a.all isWordChar) = true from ha)
    have hb : boundary p c = false := by
      rw [boundary_eq_prevW, hp, hparts.1]
      rfl
    rw [List.cons_append, ipAux_cons_copy (Or.inl (by simp [hb])),
      ipAux_wordlock a (some c) (show prevW (some c) = true from hparts.1) hparts.2 b,
      prevThrough_cons, List.cons_append]

theorem emailAux_wordlock : ∀ (a : List Char) (p : Option Char), prevW p = true →
    a.all isWordChar = true → ∀ (b : List Char),
    emailAux p 0 (a ++ b) = a ++ emailAux (prevThrough p a) 0 b
  | [], _, _, _, _ => rfl
  | c :: a, p, hp, ha, b => by
    have hparts := bandE (show (isWordChar c && a.all isWordChar) = true from ha)
    have hb : boundary p c = false := by
      rw [boundary_eq_prevW, hp, hparts.1]
      rfl
    rw [List.cons_append, emailAux_cons_copy (Or.inl (by simp [hb])),
      emailAux_wordlock a (some c) (show prevW (some c) = true from hparts.1) hparts.2 b,
      prevThrough_cons, List.cons_append]

/-! ### The environment scanner copies a maximal name run whose stop
character is not an equals sign. -/

theorem envMatchLen_run_block {c : Char} {R z : List Char} (hR : R.all isEnvRun = true)
    (hz : ∀ d, z.head? = some d → isEnvRun d = false ∧ d ≠ '=') :
    envMatchLen c (R ++ z) = none := by
  by_cases hc : isUpperStart c = true
  · unfold envMatchLen
    rw [if_pos hc, drop_length_takeWhile,
      dropWhile_all_append isEnvRun R z hR (fun d hd => (hz d hd).1)]
    cases z with
    | nil => rfl
    | cons d z2 =>
      have hd := hz d rfl
      split
      next tail heq =>
        injection heq with h1 h2
        exact absurd h1 hd.2
      next => rfl
  · exact envMatchLen_not_upper (Bool.of_not_eq_true hc) _

theorem envAux_copy_run : ∀ (R z : List Char), R.all isEnvRun = true →
    (∀ d, z.head? = some d → isEnvRun d = false ∧ d ≠ '=') →
    envAux 0 (R ++ z) = R ++ envAux 0 z
  | [], _, _, _ => rfl
  | r :: R, z, hall, hz => by
    have hparts := bandE (show (isEnvRun r && R.all isEnvRun) = true from hall)
    have hnone : envMatchLen r (R ++ z) = none := envMatchLen_run_block hparts.2 hz
    rw [List.cons_append, envAux_cons_none hnone, envAux_copy_run R z hparts.2 hz,
      List.cons_append]

/-! ### Context monotonicity and congruence for the predicates. -/

theorem noIp_mono_head {p q : Option Char} {v : List Char} (hq : prevW q = false)
    (hd : ∀ d, v.head? = some d → isWordChar d = false) (h : noIp p v = true) :
    noIp q v = true := by
  cases v with
  | nil => rfl
  | cons c rest =>
    have h2 : ((!(boundary p c && c.isDigit && (ipFromStart (c :: rest)).isSome))
        && noIp (some c) rest) = true := h
    have hparts := bandE h2
    have hw : isWordChar c = false := hd c rfl
    have hbq : boundary q c = false := by
      rw [boundary_eq_prevW, hq, hw]
      rfl
    show ((!(boundary q c && c.isDigit && (ipFromStart (c :: rest)).isSome))
        && noIp (some c) rest) = true
    rw [hbq]
    simp [hparts.2]

theorem noEmail_mono_head {p q : Option Char} {v : List Char} (hq : prevW q = false)
    (hd : ∀ d, v.head? = some d → isWordChar d = false) (h : noEmail p v = true) :
    noEmail q v = true := by
  cases v with
  | nil => rfl
  | cons c rest =>
    have h2 : ((!(boundary p c && isLocalChar c && (emailFromStart (c :: rest)).isSome))
        && noEmail (some c) rest) = true := h
    have hparts := bandE h2
    have hw : isWordChar c = false := hd c rfl
    have hbq : boundary q c = false := by
      rw [boundary_eq_prevW, hq, hw]
      rfl
    show ((!(boundary q c && isLocalChar c && (emailFromStart (c :: rest)).isSome))
        && noEmail (some c) rest) = true
    rw [hbq]
    simp [hparts.2]

theorem noEmail_congr {p q : Option Char} (hpq : prevW p = prevW q) (v : List Char) :
    noEmail p v = noEmail q v := by
  cases v with
  | nil => rfl
  | cons c rest =>
    show ((!(boundary p c && isLocalChar c && (emailFromStart (c :: rest)).isSome))
        && noEmail (some c) rest)
      = ((!(boundary q c && isLocalChar c && (emailFromStart (c :: rest)).isSome))
        && noEmail (some c) rest)
    rw [boundary_congr hpq c]

/-! ### The predicates pass to suffixes. -/

theorem noEnv_tail {c : Char} {rest : List Char} (h : noEnv (c :: rest) = true) :
    noEnv rest = true :=
  (bandE (show ((envMatchLen c rest).isNone && noEnv rest) = true from h)).2

theorem pathFixed_drop : ∀ (k : Nat) (v : List Char), pathFixed v = true →
    pathFixed (v.drop k) = true
  | 0, _, h => h
  | _+1, [], h => h
  | k+1, c :: rest, h => pathFixed_drop k rest (pathFixed_tail c rest h)

theorem noEnv_drop : ∀ (k : Nat) (v : List Char), noEnv v = true → noEnv (v.drop k) = true
  | 0, _, h => h
  | _+1, [], h => h
  | k+1, _ :: rest, h => noEnv_drop k rest (noEnv_tail h)

theorem noIp_drop : ∀ (k : Nat) (p : Option Char) (v : List Char), noIp p v = true →
    noIp (prevThrough p (v.take k)) (v.drop k) = true
  | 0, _, _, h => h
  | _+1, _, [], _ => rfl
  | k+1, p, c :: rest, h => by
    have h2 : ((!(boundary p c && c.isDigit && (ipFromStart (c :: rest)).isSome))
        && noIp (some c) rest) = true := h
    have ih := noIp_drop k (some c) rest (bandE h2).2
    simpa [List.take_succ_cons, List.drop_succ_cons, prevThrough_cons] using ih

/-! ### The markers and their character-class facts. -/

theorem envBlocked_mr : envBlocked "[REDACTED]".data = true := by decide

theorem envBlocked_mi : envBlocked "[IP_ADDRESS]".data = true := by decide

theorem envBlocked_me : envBlocked "[EMAIL]".data = true := by decide

theorem emailBlocked_mr : emailBlocked "[REDACTED]".data = true := by decide

theorem emailBlocked_mi : emailBlocked "[IP_ADDRESS]".data = true := by decide

theorem emailBlocked_me : emailBlocked "[EMAIL]".data = true := by decide

theorem nodigit_mr : "[REDACTED]".data.all (fun c => !c.isDigit) = true := by decide

theorem nodigit_mi : "[IP_ADDRESS]".data.all (fun c => !c.isDigit) = true := by decide

theorem nodigit_me : "[EMAIL]".data.all (fun c => !c.isDigit) = true := by decide

/-! ### Slash-free prefixes and the path window. -/

theorem pathFixed_noslash_append : ∀ (a : List Char), a.all (fun c => !(c = '/')) = true →
    ∀ (b : List Char), pathFixed (a ++ b) = pathFixed b
  | [], _, _ => rfl
  | c :: a, h, b => by
    have hp := bandE (show ((!(c = '/')) && a.all (fun c => !(c = '/'))) = true from h)
    show ((!(c = '/') || ((a ++ b).takeWhile (fun d => !isPathStop d) == "[REDACTED]".data))
        && pathFixed (a ++ b)) = pathFixed b
    rw [hp.1, pathFixed_noslash_append a hp.2 b]
    simp

theorem noslash_mr : "[REDACTED]".data.all (fun c => !(c = '/')) = true := by decide

theorem noslash_mi : "[IP_ADDRESS]".data.all (fun c => !(c = '/')) = true := by decide

theorem noslash_me : "[EMAIL]".data.all (fun c => !(c = '/')) = true := by decide

theorem slashmr_cons : "/[REDACTED]".data = '/' :: "[REDACTED]".data := by decide

theorem pathFixed_window_append (b : List Char)
    (hb : ∀ s, b.head? = some s → isPathStop s = true) (hfix : pathFixed b = true) :
    pathFixed ("/[REDACTED]".data ++ b) = true := by
  have htw : ("[REDACTED]".data ++ b).takeWhile (fun d => !isPathStop d) = "[REDACTED]".data :=
    takeWhile_all_append _ _ _ (by decide) (fun s hs => by rw [hb s hs]; rfl)
  rw [slashmr_cons, List.cons_append]
  show ((!('/' = '/') || (("[REDACTED]".data ++ b).takeWhile (fun d => !isPathStop d)
        == "[REDACTED]".data))
      && pathFixed ("[REDACTED]".data ++ b)) = true
  rw [htw, pathFixed_noslash_append "[REDACTED]".data noslash_mr b]
  simp [hfix]


/-! ### Splitting a match shape into matched prefix and remainder. -/

theorem ipShape_split {c : Char} {w : List Char} {m : Nat} (hS : IpShape (c :: w) m) :
    ∃ X r, w = X ++ r ∧ X.length = m - 1 ∧ (∀ x ∈ X, x ≠ '[') ∧
      (∃ z, X.getLast? = some z ∧ z.isDigit = true) ∧
      (∀ x, r.head? = some x → isWordChar x = false) ∧
      (∀ v2, (∀ x, v2.head? = some x → isWordChar x = false) → IpShape (c :: (X ++ v2)) m) := by
  obtain ⟨d1, d2, d3, d4, r, hsplit, a1, b1, c1, a2, b2, c2, a3, b3, c3, a4, b4, c4, hm, hr⟩ :=
    hS
  cases d1 with
  | nil => simp at b1
  | cons e d1t =>
    have hce : c = e := by
      have h0 := congrArg List.head? hsplit
      simpa using h0
    subst hce
    rw [List.cons_append] at hsplit
    have hw : w = d1t ++ '.' :: (d2 ++ '.' :: (d3 ++ '.' :: (d4 ++ r))) := by
      simpa using hsplit
    have ha1t : d1t.all Char.isDigit = true :=
      (bandE (show (Char.isDigit c && d1t.all Char.isDigit) = true from a1)).2
    have hd4ne : d4 ≠ [] := by
      intro e
      subst e
      simp at b4
    obtain ⟨z, hz⟩ := getLast?_some_of_ne_nil d4 hd4ne
    refine ⟨d1t ++ '.' :: (d2 ++ '.' :: (d3 ++ '.' :: d4)), r, ?_, ?_, ?_, ?_, hr, ?_⟩
    · rw [hw]
      simp [List.append_assoc]
    · simp only [List.length_append, List.length_cons] at hm ⊢
      omega
    · intro x hx
      simp only [List.mem_append, List.mem_cons] at hx
      have hx2 : x ∈ d1t ∨ x ∈ d2 ∨ x ∈ d3 ∨ x ∈ d4 ∨ x = '.' := by tauto
      rcases hx2 with h | h | h | h | h
      · exact digit_ne_bracket (List.all_eq_true.mp ha1t x h)
      · exact digit_ne_bracket (List.all_eq_true.mp a2 x h)
      · exact digit_ne_bracket (List.all_eq_true.mp a3 x h)
      · exact digit_ne_bracket (List.all_eq_true.mp a4 x h)
      · subst h; decide
    · refine ⟨z, ?_, getLast?_all hz a4⟩
      have h5 : ('.' :: d4).getLast? = some z := getLast?_append_some ['.'] d4 hz
      have h6 : (d3 ++ '.' :: d4).getLast? = some z := getLast?_append_some d3 _ h5
      have h7 : ('.' :: (d3 ++ '.' :: d4)).getLast? = some z :=
        getLast?_append_some ['.'] _ h6
      have h8 : (d2 ++ '.' :: (d3 ++ '.' :: d4)).getLast? = some z :=
        getLast?_append_some d2 _ h7
      have h9 : ('.' :: (d2 ++ '.' :: (d3 ++ '.' :: d4))).getLast? = some z :=
        getLast?_append_some ['.'] _ h8
      exact getLast?_append_some d1t _ h9
    · intro v2 hv2
      refine ⟨c :: d1t, d2, d3, d4, v2, ?_, a1, b1, c1, a2, b2, c2, a3, b3, c3, a4, b4, c4,
        hm, hv2⟩
      simp [List.append_assoc]

theorem emailShape_split {c : Char} {w : List Char} {m : Nat} (hS : EmailShape (c :: w) m) :
    ∃ X r tlast, w = X ++ r ∧ X.length = m - 1 ∧ (∀ x ∈ X, x ≠ '[') ∧
      X.getLast? = some tlast ∧ isTldChar tlast = true ∧
      endBoundary tlast r.head? = true ∧
      (∀ v2, endBoundary tlast v2.head? = true → EmailShape (c :: (X ++ v2)) m) := by
  obtain ⟨l, d, t, r, tlast, hsplit, hlne, hlall, hdne, hdall, htall, ht2, hlast, hb, hm⟩ := hS
  cases l with
  | nil => exact absurd rfl hlne
  | cons e lt =>
    have hce : c = e := by
      have h0 := congrArg List.head? hsplit
      simpa using h0
    subst hce
    rw [List.cons_append] at hsplit
    have hw : w = lt ++ '@' :: (d ++ '.' :: (t ++ r)) := by
      simpa using hsplit
    have hltall : lt.all isLocalChar = true :=
      (bandE (show (isLocalChar c && lt.all isLocalChar) = true from hlall)).2
    have htne : t ≠ [] := by
      intro e
      subst e
      simp at ht2
    refine ⟨lt ++ '@' :: (d ++ '.' :: t), r, tlast, ?_, ?_, ?_, ?_, getLast?_all hlast htall,
      hb, ?_⟩
    · rw [hw]
      simp [List.append_assoc]
    · simp only [List.length_append, List.length_cons] at hm ⊢
      omega
    · intro x hx
      simp only [List.mem_append, List.mem_cons] at hx
      have hx2 : x ∈ lt ∨ x ∈ d ∨ x ∈ t ∨ x = '@' ∨ x = '.' := by tauto
      rcases hx2 with h | h | h | h | h
      · exact local_ne_bracket (List.all_eq_true.mp hltall x h)
      · exact domain_ne_bracket (List.all_eq_true.mp hdall x h)
      · exact tld_ne_bracket (List.all_eq_true.mp htall x h)
      · subst h; decide
      · subst h; decide
    · have h5 : ('.' :: t).getLast? = some tlast := getLast?_append_some ['.'] t hlast
      have h6 : (d ++ '.' :: t).getLast? = some tlast := getLast?_append_some d _ h5
      have h7 : ('@' :: (d ++ '.' :: t)).getLast? = some tlast :=
        getLast?_append_some ['@'] _ h6
      exact getLast?_append_some lt _ h7
    · intro v2 hv2
      refine ⟨c :: lt, d, t, v2, tlast, ?_, hlne, hlall, hdne, hdall, htall, ht2, hlast,
        hv2, hm⟩
      simp [List.append_assoc]


/-! ### Exhaustion: each scanner leaves no match of its own pattern. -/

theorem pathAux_fixed_bound : ∀ (n : Nat) (u : List Char), u.length ≤ n →
    pathFixed (pathAux 0 u) = true
  | _, [], _ => rfl
  | 0, _ :: _, h => by simp at h
  | n+1, c :: rest, h => by
    have hn : rest.length ≤ n := by simpa using h
    by_cases hc : c = '/'
    · subst hc
      rw [pathAux_cons_slash]
      have hdw : rest.drop (pathMatchLen rest) = rest.dropWhile (fun d => !isPathStop d) := by
        unfold pathMatchLen
        exact drop_length_takeWhile _ rest
      rw [hdw]
      apply pathFixed_window_append
      · intro s hs
        rw [pathAux_head?] at hs
        have h2 := head?_dropWhile (fun d => !isPathStop d) rest s hs
        simpa using h2
      · exact pathAux_fixed_bound n (rest.dropWhile (fun d => !isPathStop d))
          (Nat.le_trans (length_dropWhile_le _ rest) hn)
    · rw [pathAux_cons_other rest hc]
      show ((!(c = '/') || ((pathAux 0 rest).takeWhile (fun d => !isPathStop d)
            == "[REDACTED]".data)) && pathFixed (pathAux 0 rest)) = true
      rw [pathAux_fixed_bound n rest hn]
      simp [hc]

theorem envAux_noenv_bound : ∀ (n : Nat) (u : List Char), u.length ≤ n →
    noEnv (envAux 0 u) = true
  | _, [], _ => rfl
  | 0, _ :: _, h => by simp at h
  | n+1, c :: rest, h => by
    have hn : rest.length ≤ n := by simpa using h
    cases hm : envMatchLen c rest with
    | some m =>
      rw [envAux_cons_some hm, noEnv_blocked_append _ envBlocked_mr _]
      exact envAux_noenv_bound n (rest.drop m) (by rw [List.length_drop]; omega)
    | none =>
      rw [envAux_cons_none hm]
      show ((envMatchLen c (envAux 0 rest)).isNone && noEnv (envAux 0 rest)) = true
      rw [envAux_noenv_bound n rest hn]
      suffices hnone : envMatchLen c (envAux 0 rest) = none by
        rw [hnone]
        rfl
      by_cases hc : isUpperStart c = true
      · have hmm := hm
        unfold envMatchLen at hmm
        rw [if_pos hc, drop_length_takeWhile] at hmm
        have hz : ∀ d, (rest.dropWhile isEnvRun).head? = some d →
            isEnvRun d = false ∧ d ≠ '=' := by
          split at hmm
          · exact absurd hmm (by simp)
          · next hne =>
              intro d hd
              refine ⟨head?_dropWhile _ rest d hd, fun he => ?_⟩
              obtain ⟨t2, ht2⟩ := eq_cons_of_head? hd
              rw [he] at ht2
              exact hne t2 ht2
        have hcopy : envAux 0 rest = rest.takeWhile isEnvRun
            ++ envAux 0 (rest.dropWhile isEnvRun) := by
          conv_lhs => rw [← List.takeWhile_append_dropWhile (p := isEnvRun) (l := rest)]
          exact envAux_copy_run _ _ (all_of_takeWhile isEnvRun rest) hz
        rw [hcopy]
        apply envMatchLen_run_block (all_of_takeWhile isEnvRun rest)
        intro d hd
        rcases envAux_head? (rest.dropWhile isEnvRun) with hh | ⟨hbr, cc, rr, mm, hzeq, hm2⟩
        · rw [hh] at hd
          exact hz d hd
        · have hcc := hz cc (by rw [hzeq]; rfl)
          have hcu : isUpperStart cc = false := by
            have h2 := hcc.1
            unfold isEnvRun at h2
            simp only [Bool.or_eq_false_iff] at h2
            exact h2.1
          rw [envMatchLen_not_upper hcu] at hm2
          simp at hm2
      · exact envMatchLen_not_upper (Bool.of_not_eq_true hc) _

/-! ### Preservation: later scanners leave earlier fixed points fixed. -/

theorem envAux_pathFixed_bound : ∀ (n : Nat) (v : List Char), v.length ≤ n →
    pathFixed v = true → pathFixed (envAux 0 v) = true
  | _, [], _, _ => rfl
  | 0, _ :: _, h, _ => by simp at h
  | n+1, c :: rest, h, hfix => by
    have hn : rest.length ≤ n := by simpa using h
    have hparts := bandE (show ((!(c = '/') || (rest.takeWhile (fun d => !isPathStop d)
        == "[REDACTED]".data)) && pathFixed rest) = true from hfix)
    cases hm : envMatchLen c rest with
    | some m =>
      rw [envAux_cons_some hm, pathFixed_noslash_append _ noslash_mr _]
      exact envAux_pathFixed_bound n (rest.drop m) (by rw [List.length_drop]; omega)
        (pathFixed_drop m rest hparts.2)
    | none =>
      rw [envAux_cons_none hm]
      show ((!(c = '/') || ((envAux 0 rest).takeWhile (fun d => !isPathStop d)
          == "[REDACTED]".data)) && pathFixed (envAux 0 rest)) = true
      rw [envAux_pathFixed_bound n rest hn hparts.2]
      by_cases hc : c = '/'
      · have hrun : rest.takeWhile (fun d => !isPathStop d) = "[REDACTED]".data := by
          have h1 := hparts.1
          rw [hc] at h1
          simpa using h1
        have hsplit2 : rest = "[REDACTED]".data
            ++ rest.dropWhile (fun d => !isPathStop d) := by
          conv_lhs =>
            rw [← List.takeWhile_append_dropWhile (p := fun d => !isPathStop d) (l := rest)]
          rw [hrun]
        have hcopy : envAux 0 rest = "[REDACTED]".data
            ++ envAux 0 (rest.dropWhile (fun d => !isPathStop d)) := by
          conv_lhs => rw [hsplit2]
          exact envAux_blocked_append _ envBlocked_mr _
        rw [hcopy]
        have htw : ("[REDACTED]".data
            ++ envAux 0 (rest.dropWhile (fun d => !isPathStop d))).takeWhile
            (fun d => !isPathStop d) = "[REDACTED]".data := by
          apply takeWhile_all_append _ _ _ (by decide)
          intro s hs
          rcases envAux_head? (rest.dropWhile (fun d => !isPathStop d)) with
            hh | ⟨hbr, cc, rr, mm, hzeq, hm2⟩
          · rw [hh] at hs
            exact head?_dropWhile (fun d => !isPathStop d) rest s hs
          · have hstop : isPathStop cc = true := by
              have h2 := head?_dropWhile (fun d => !isPathStop d) rest cc (by rw [hzeq]; rfl)
              simpa using h2
            rw [envMatchLen_not_upper (stop_not_upper hstop)] at hm2
            simp at hm2
        rw [htw]
        simp
      · simp [hc]


theorem ipAux_pathFixed_bound : ∀ (n : Nat) (p : Option Char) (v : List Char), v.length ≤ n →
    pathFixed v = true → pathFixed (ipAux p 0 v) = true
  | _, _, [], _, _ => rfl
  | 0, _, _ :: _, h, _ => by simp at h
  | n+1, p, c :: rest, h, hfix => by
    have hn : rest.length ≤ n := by simpa using h
    have hparts := bandE (show ((!(c = '/') || (rest.takeWhile (fun d => !isPathStop d)
        == "[REDACTED]".data)) && pathFixed rest) = true from hfix)
    have hstep : ((boundary p c && c.isDigit) = false ∨ ipFromStart (c :: rest) = none) ∨
        ∃ m, (boundary p c && c.isDigit) = true ∧ ipFromStart (c :: rest) = some m := by
      by_cases hb : (boundary p c && c.isDigit) = true
      · cases hm : ipFromStart (c :: rest) with
        | none => exact Or.inl (Or.inr rfl)
        | some m => exact Or.inr ⟨m, hb, rfl⟩
      · exact Or.inl (Or.inl (Bool.of_not_eq_true hb))
    rcases hstep with hOr | ⟨m, hb, hm⟩
    · rw [ipAux_cons_copy hOr]
      show ((!(c = '/') || ((ipAux (some c) 0 rest).takeWhile (fun d => !isPathStop d)
          == "[REDACTED]".data)) && pathFixed (ipAux (some c) 0 rest)) = true
      rw [ipAux_pathFixed_bound n (some c) rest hn hparts.2]
      by_cases hc : c = '/'
      · have hrun : rest.takeWhile (fun d => !isPathStop d) = "[REDACTED]".data := by
          have h1 := hparts.1
          rw [hc] at h1
          simpa using h1
        have hsplit2 : rest = "[REDACTED]".data
            ++ rest.dropWhile (fun d => !isPathStop d) := by
          conv_lhs =>
            rw [← List.takeWhile_append_dropWhile (p := fun d => !isPathStop d) (l := rest)]
          rw [hrun]
        have hcopy : ipAux (some c) 0 rest = "[REDACTED]".data
            ++ ipAux (prevThrough (some c) "[REDACTED]".data) 0
              (rest.dropWhile (fun d => !isPathStop d)) := by
          conv_lhs => rw [hsplit2]
          exact ipAux_nodigit_append _ nodigit_mr _ _
        rw [hcopy]
        have htw : ("[REDACTED]".data
            ++ ipAux (prevThrough (some c) "[REDACTED]".data) 0
              (rest.dropWhile (fun d => !isPathStop d))).takeWhile
            (fun d => !isPathStop d) = "[REDACTED]".data := by
          apply takeWhile_all_append _ _ _ (by decide)
          intro s hs
          rcases ipAux_head? (prevThrough (some c) "[REDACTED]".data)
              (rest.dropWhile (fun d => !isPathStop d)) with
            hh | ⟨hbr, cc, rr, mm, hzeq, hbb, hm2⟩
          · rw [hh] at hs
            exact head?_dropWhile (fun d => !isPathStop d) rest s hs
          · have hstop : isPathStop cc = true := by
              have h2 := head?_dropWhile (fun d => !isPathStop d) rest cc (by rw [hzeq]; rfl)
              simpa using h2
            have hdg := (bandE hbb).2
            rw [stop_not_digit hstop] at hdg
            simp at hdg
        rw [htw]
        simp
      · simp [hc]
    · rw [ipAux_cons_some hb hm, pathFixed_noslash_append _ noslash_mi _]
      exact ipAux_pathFixed_bound n _ (rest.drop (m - 1)) (by rw [List.length_drop]; omega)
        (pathFixed_drop (m - 1) rest hparts.2)

theorem emailAux_pathFixed_bound : ∀ (n : Nat) (p : Option Char) (v : List Char),
    v.length ≤ n → pathFixed v = true → pathFixed (emailAux p 0 v) = true
  | _, _, [], _, _ => rfl
  | 0, _, _ :: _, h, _ => by simp at h
  | n+1, p, c :: rest, h, hfix => by
    have hn : rest.length ≤ n := by simpa using h
    have hparts := bandE (show ((!(c = '/') || (rest.takeWhile (fun d => !isPathStop d)
        == "[REDACTED]".data)) && pathFixed rest) = true from hfix)
    have hstep : ((boundary p c && isLocalChar c) = false ∨ emailFromStart (c :: rest) = none)
        ∨ ∃ m, (boundary p c && isLocalChar c) = true
          ∧ emailFromStart (c :: rest) = some m := by
      by_cases hb : (boundary p c && isLocalChar c) = true
      · cases hm : emailFromStart (c :: rest) with
        | none => exact Or.inl (Or.inr rfl)
        | some m => exact Or.inr ⟨m, hb, rfl⟩
      · exact Or.inl (Or.inl (Bool.of_not_eq_true hb))
    rcases hstep with hOr | ⟨m, hb, hm⟩
    · rw [emailAux_cons_copy hOr]
      show ((!(c = '/') || ((emailAux (some c) 0 rest).takeWhile (fun d => !isPathStop d)
          == "[REDACTED]".data)) && pathFixed (emailAux (some c) 0 rest)) = true
      rw [emailAux_pathFixed_bound n (some c) rest hn hparts.2]
      by_cases hc : c = '/'
      · have hrun : rest.takeWhile (fun d => !isPathStop d) = "[REDACTED]".data := by
          have h1 := hparts.1
          rw [hc] at h1
          simpa using h1
        have hsplit2 : rest = "[REDACTED]".data
            ++ rest.dropWhile (fun d => !isPathStop d) := by
          conv_lhs =>
            rw [← List.takeWhile_append_dropWhile (p := fun d => !isPathStop d) (l := rest)]
          rw [hrun]
        have hcopy : emailAux (some c) 0 rest = "[REDACTED]".data
            ++ emailAux (prevThrough (some c) "[REDACTED]".data) 0
              (rest.dropWhile (fun d => !isPathStop d)) := by
          conv_lhs => rw [hsplit2]
          exact emailAux_blocked_append _ emailBlocked_mr _ _
        rw [hcopy]
        have htw : ("[REDACTED]".data
            ++ emailAux (prevThrough (some c) "[REDACTED]".data) 0
              (rest.dropWhile (fun d => !isPathStop d))).takeWhile
            (fun d => !isPathStop d) = "[REDACTED]".data := by
          apply takeWhile_all_append _ _ _ (by decide)
          intro s hs
          rcases emailAux_head? (prevThrough (some c) "[REDACTED]".data)
              (rest.dropWhile (fun d => !isPathStop d)) with
            hh | ⟨hbr, cc, rr, mm, hzeq, hbb, hm2⟩
          · rw [hh] at hs
            exact head?_dropWhile (fun d => !isPathStop d) rest s hs
          · have hstop : isPathStop cc = true := by
              have h2 := head?_dropWhile (fun d => !isPathStop d) rest cc (by rw [hzeq]; rfl)
              simpa using h2
            have hdg := (bandE hbb).2
            rw [stop_not_local hstop] at hdg
            simp at hdg
        rw [htw]
        simp
      · simp [hc]
    · rw [emailAux_cons_some hb hm, pathFixed_noslash_append _ noslash_me _]
      exact emailAux_pathFixed_bound n _ (rest.drop (m - 1))
        (by rw [List.length_drop]; omega) (pathFixed_drop (m - 1) rest hparts.2)


theorem ipAux_noEnv_bound : ∀ (n : Nat) (p : Option Char) (v : List Char), v.length ≤ n →
    noEnv v = true → noEnv (ipAux p 0 v) = true
  | _, _, [], _, _ => rfl
  | 0, _, _ :: _, h, _ => by simp at h
  | n+1, p, c :: rest, h, hin => by
    have hn : rest.length ≤ n := by simpa using h
    have hparts := bandE (show ((envMatchLen c rest).isNone && noEnv rest) = true from hin)
    have hm0 : envMatchLen c rest = none := by
      cases hq : envMatchLen c rest with
      | none => rfl
      | some m => rw [hq] at hparts; simp at hparts
    have hstep : ((boundary p c && c.isDigit) = false ∨ ipFromStart (c :: rest) = none) ∨
        ∃ m, (boundary p c && c.isDigit) = true ∧ ipFromStart (c :: rest) = some m := by
      by_cases hb : (boundary p c && c.isDigit) = true
      · cases hm : ipFromStart (c :: rest) with
        | none => exact Or.inl (Or.inr rfl)
        | some m => exact Or.inr ⟨m, hb, rfl⟩
      · exact Or.inl (Or.inl (Bool.of_not_eq_true hb))
    rcases hstep with hOr | ⟨m, hb, hm⟩
    · rw [ipAux_cons_copy hOr]
      show ((envMatchLen c (ipAux (some c) 0 rest)).isNone
          && noEnv (ipAux (some c) 0 rest)) = true
      rw [ipAux_noEnv_bound n (some c) rest hn hparts.2]
      suffices hnone : envMatchLen c (ipAux (some c) 0 rest) = none by
        rw [hnone]
        rfl
      by_cases hc : isUpperStart c = true
      · have hmm := hm0
        unfold envMatchLen at hmm
        rw [if_pos hc, drop_length_takeWhile] at hmm
        have hz : ∀ d, (rest.dropWhile isEnvRun).head? = some d →
            isEnvRun d = false ∧ d ≠ '=' := by
          split at hmm
          · exact absurd hmm (by simp)
          · next hne =>
              intro d hd
              refine ⟨head?_dropWhile _ rest d hd, fun he => ?_⟩
              obtain ⟨t2, ht2⟩ := eq_cons_of_head? hd
              rw [he] at ht2
              exact hne t2 ht2
        have hRword : (rest.takeWhile isEnvRun).all isWordChar = true := by
          apply List.all_eq_true.mpr
          intro x hx
          exact word_of_envRun (List.all_eq_true.mp (all_of_takeWhile isEnvRun rest) x hx)
        have hcopy : ipAux (some c) 0 rest = rest.takeWhile isEnvRun
            ++ ipAux (prevThrough (some c) (rest.takeWhile isEnvRun)) 0
              (rest.dropWhile isEnvRun) := by
          conv_lhs => rw [← List.takeWhile_append_dropWhile (p := isEnvRun) (l := rest)]
          exact ipAux_wordlock _ (some c) (word_of_upperStart hc) hRword _
        rw [hcopy]
        apply envMatchLen_run_block (all_of_takeWhile isEnvRun rest)
        intro d hd
        rcases ipAux_head? (prevThrough (some c) (rest.takeWhile isEnvRun))
            (rest.dropWhile isEnvRun) with hh | ⟨hbr, cc, rr, mm, hzeq, hbb, hm2⟩
        · rw [hh] at hd
          exact hz d hd
        · have hdbr : d = '[' := by
            rw [hbr] at hd
            have h3 : ('[' : Char) = d := by simpa using hd
            exact h3.symm
          subst hdbr
          exact ⟨by decide, by decide⟩
      · exact envMatchLen_not_upper (Bool.of_not_eq_true hc) _
    · rw [ipAux_cons_some hb hm, noEnv_blocked_append _ envBlocked_mi _]
      exact ipAux_noEnv_bound n _ (rest.drop (m - 1)) (by rw [List.length_drop]; omega)
        (noEnv_drop (m - 1) rest hparts.2)

theorem emailAux_noEnv_bound : ∀ (n : Nat) (p : Option Char) (v : List Char), v.length ≤ n →
    noEnv v = true → noEnv (emailAux p 0 v) = true
  | _, _, [], _, _ => rfl
  | 0, _, _ :: _, h, _ => by simp at h
  | n+1, p, c :: rest, h, hin => by
    have hn : rest.length ≤ n := by simpa using h
    have hparts := bandE (show ((envMatchLen c rest).isNone && noEnv rest) = true from hin)
    have hm0 : envMatchLen c rest = none := by
      cases hq : envMatchLen c rest with
      | none => rfl
      | some m => rw [hq] at hparts; simp at hparts
    have hstep : ((boundary p c && isLocalChar c) = false ∨ emailFromStart (c :: rest) = none)
        ∨ ∃ m, (boundary p c && isLocalChar c) = true
          ∧ emailFromStart (c :: rest) = some m := by
      by_cases hb : (boundary p c && isLocalChar c) = true
      · cases hm : emailFromStart (c :: rest) with
        | none => exact Or.inl (Or.inr rfl)
        | some m => exact Or.inr ⟨m, hb, rfl⟩
      · exact Or.inl (Or.inl (Bool.of_not_eq_true hb))
    rcases hstep with hOr | ⟨m, hb, hm⟩
    · rw [emailAux_cons_copy hOr]
      show ((envMatchLen c (emailAux (some c) 0 rest)).isNone
          && noEnv (emailAux (some c) 0 rest)) = true
      rw [emailAux_noEnv_bound n (some c) rest hn hparts.2]
      suffices hnone : envMatchLen c (emailAux (some c) 0 rest) = none by
        rw [hnone]
        rfl
      by_cases hc : isUpperStart c = true
      · have hmm := hm0
        unfold envMatchLen at hmm
        rw [if_pos hc, drop_length_takeWhile] at hmm
        have hz : ∀ d, (rest.dropWhile isEnvRun).head? = some d →
            isEnvRun d = false ∧ d ≠ '=' := by
          split at hmm
          · exact absurd hmm (by simp)
          · next hne =>
              intro d hd
              refine ⟨head?_dropWhile _ rest d hd, fun he => ?_⟩
              obtain ⟨t2, ht2⟩ := eq_cons_of_head? hd
              rw [he] at ht2
              exact hne t2 ht2
        have hRword : (rest.takeWhile isEnvRun).all isWordChar = true := by
          apply List.all_eq_true.mpr
          intro x hx
          exact word_of_envRun (List.all_eq_true.mp (all_of_takeWhile isEnvRun rest) x hx)
        have hcopy : emailAux (some c) 0 rest = rest.takeWhile isEnvRun
            ++ emailAux (prevThrough (some c) (rest.takeWhile isEnvRun)) 0
              (rest.dropWhile isEnvRun) := by
          conv_lhs => rw [← List.takeWhile_append_dropWhile (p := isEnvRun) (l := rest)]
          exact emailAux_wordlock _ (some c) (word_of_upperStart hc) hRword _
        rw [hcopy]
        apply envMatchLen_run_block (all_of_takeWhile isEnvRun rest)
        intro d hd
        rcases emailAux_head? (prevThrough (some c) (rest.takeWhile isEnvRun))
            (rest.dropWhile isEnvRun) with hh | ⟨hbr, cc, rr, mm, hzeq, hbb, hm2⟩
        · rw [hh] at hd
          exact hz d hd
        · have hdbr : d = '[' := by
            rw [hbr] at hd
            have h3 : ('[' : Char) = d := by simpa using hd
            exact h3.symm
          subst hdbr
          exact ⟨by decide, by decide⟩
      · exact envMatchLen_not_upper (Bool.of_not_eq_true hc) _
    · rw [emailAux_cons_some hb hm, noEnv_blocked_append _ envBlocked_me _]
      exact emailAux_noEnv_bound n _ (rest.drop (m - 1)) (by rw [List.length_drop]; omega)
        (noEnv_drop (m - 1) rest hparts.2)


theorem noIp_congr {p q : Option Char} (hpq : prevW p = prevW q) (v : List Char) :
    noIp p v = noIp q v := by
  cases v with
  | nil => rfl
  | cons c rest =>
    show ((!(boundary p c && c.isDigit && (ipFromStart (c :: rest)).isSome))
        && noIp (some c) rest)
      = ((!(boundary q c && c.isDigit && (ipFromStart (c :: rest)).isSome))
        && noIp (some c) rest)
    rw [boundary_congr hpq c]

theorem ipAux_noIp_bound : ∀ (n : Nat) (p : Option Char) (v : List Char), v.length ≤ n →
    noIp p (ipAux p 0 v) = true
  | _, _, [], _ => rfl
  | 0, _, _ :: _, h => by simp at h
  | n+1, p, c :: rest, h => by
    have hn : rest.length ≤ n := by simpa using h
    have hstep : ((boundary p c && c.isDigit) = false ∨ ipFromStart (c :: rest) = none) ∨
        ∃ m, (boundary p c && c.isDigit) = true ∧ ipFromStart (c :: rest) = some m := by
      by_cases hb : (boundary p c && c.isDigit) = true
      · cases hm : ipFromStart (c :: rest) with
        | none => exact Or.inl (Or.inr rfl)
        | some m => exact Or.inr ⟨m, hb, rfl⟩
      · exact Or.inl (Or.inl (Bool.of_not_eq_true hb))
    rcases hstep with hOr | ⟨m, hb, hm⟩
    · rw [ipAux_cons_copy hOr]
      show ((!(boundary p c && c.isDigit
            && (ipFromStart (c :: ipAux (some c) 0 rest)).isSome))
          && noIp (some c) (ipAux (some c) 0 rest)) = true
      rw [ipAux_noIp_bound n (some c) rest hn]
      rcases hOr with hb | hmn
      · simp [hb]
      · by_cases hb : (boundary p c && c.isDigit) = true
        · suffices hno : ipFromStart (c :: ipAux (some c) 0 rest) = none by
            rw [hno]
            simp
          cases hI : ipFromStart (c :: ipAux (some c) 0 rest) with
          | none => rfl
          | some m2 =>
            exfalso
            have hS := (ipFromStart_eq_some_iff _ m2).mp hI
            obtain ⟨X, r, hXr, hXlen, hXbr, ⟨z, hXlast, hzdig⟩, hrhead, hrecon⟩ :=
              ipShape_split hS
            obtain ⟨v2, hv2, hr⟩ := ipAux_pullback X (some c) rest r hXr hXbr
            have hp3 : prevThrough (some c) X = some z := by
              unfold prevThrough
              rw [hXlast]
            have hpw : prevW (prevThrough (some c) X) = true := by
              rw [hp3]
              show isWordChar z = true
              unfold isWordChar
              simp [hzdig]
            have hrv : r.head? = v2.head? := by
              rcases ipAux_head? (prevThrough (some c) X) v2 with
                hh | ⟨hbr2, cc, rr, mm, hzeq, hbb, hm2⟩
              · rw [hr] at hh
                exact hh
              · exfalso
                have hbcc := (bandE hbb).1
                rw [boundary_eq_prevW, hpw] at hbcc
                have hccw : isWordChar cc = true := by
                  have hdg := (bandE hbb).2
                  unfold isWordChar
                  simp [hdg]
                rw [hccw] at hbcc
                simp at hbcc
            have hv2head : ∀ x, v2.head? = some x → isWordChar x = false := by
              intro x hx
              exact hrhead x (by rw [hrv]; exact hx)
            have hSin := hrecon v2 hv2head
            rw [← hv2] at hSin
            have hsome := (ipFromStart_eq_some_iff _ m2).mpr hSin
            rw [hmn] at hsome
            simp at hsome
        · simp [Bool.of_not_eq_true hb]
    · rw [ipAux_cons_some hb hm]
      have hS := (ipFromStart_eq_some_iff _ m).mp hm
      obtain ⟨X, r, hXr, hXlen, hXbr, ⟨z, hXlast, hzdig⟩, hrhead, hrecon⟩ := ipShape_split hS
      have hdp : rest.drop (m - 1) = r := by
        rw [hXr, ← hXlen, List.drop_left]
      rw [noIp_nodigit_append _ nodigit_mi _ _]
      have hml : "[IP_ADDRESS]".data.getLast? = some ']' := by decide
      have hpm : prevThrough p "[IP_ADDRESS]".data = some ']' := by
        unfold prevThrough
        rw [hml]
      rw [hpm]
      have hIH := ipAux_noIp_bound n (prevThrough (some c) (rest.take (m - 1)))
        (rest.drop (m - 1)) (by rw [List.length_drop]; omega)
      apply noIp_mono_head (show prevW (some ']') = false by decide) ?hd hIH
      intro d hd0
      rw [hdp] at hd0
      rcases ipAux_head? (prevThrough (some c) (rest.take (m - 1))) r with
        hh | ⟨hbr2, cc, rr, mm, hzeq, hbb, hm2⟩
      · rw [hh] at hd0
        exact hrhead d hd0
      · rw [hbr2] at hd0
        have h3 : ('[' : Char) = d := by simpa using hd0
        rw [← h3]
        decide


theorem emailAux_noEmail_bound : ∀ (n : Nat) (p : Option Char) (v : List Char),
    v.length ≤ n → noEmail p (emailAux p 0 v) = true
  | _, _, [], _ => rfl
  | 0, _, _ :: _, h => by simp at h
  | n+1, p, c :: rest, h => by
    have hn : rest.length ≤ n := by simpa using h
    have hstep : ((boundary p c && isLocalChar c) = false ∨ emailFromStart (c :: rest) = none)
        ∨ ∃ m, (boundary p c && isLocalChar c) = true
          ∧ emailFromStart (c :: rest) = some m := by
      by_cases hb : (boundary p c && isLocalChar c) = true
      · cases hm : emailFromStart (c :: rest) with
        | none => exact Or.inl (Or.inr rfl)
        | some m => exact Or.inr ⟨m, hb, rfl⟩
      · exact Or.inl (Or.inl (Bool.of_not_eq_true hb))
    rcases hstep with hOr | ⟨m, hb, hm⟩
    · rw [emailAux_cons_copy hOr]
      show ((!(boundary p c && isLocalChar c
            && (emailFromStart (c :: emailAux (some c) 0 rest)).isSome))
          && noEmail (some c) (emailAux (some c) 0 rest)) = true
      rw [emailAux_noEmail_bound n (some c) rest hn]
      rcases hOr with hb | hmn
      · simp [hb]
      · by_cases hb : (boundary p c && isLocalChar c) = true
        · suffices hno : emailFromStart (c :: emailAux (some c) 0 rest) = none by
            rw [hno]
            simp
          cases hI : emailFromStart (c :: emailAux (some c) 0 rest) with
          | none => rfl
          | some m2 =>
            exfalso
            have hS := emailFromStart_shape _ m2 hI
              ⟨c, emailAux (some c) 0 rest, rfl, (bandE hb).2⟩
            obtain ⟨X, r, tlast, hXr, hXlen, hXbr, hXlast, htld, hbnd, hrecon⟩ :=
              emailShape_split hS
            obtain ⟨v2, hv2, hr⟩ := emailAux_pullback X (some c) rest r hXr hXbr
            have hp3 : prevThrough (some c) X = some tlast := by
              unfold prevThrough
              rw [hXlast]
            have hend : endBoundary tlast v2.head? = true := by
              rcases emailAux_head? (prevThrough (some c) X) v2 with
                hh | ⟨hbr2, cc, rr, mm, hzeq, hbb, hm2⟩
              · rw [hr] at hh
                rw [← hh]
                exact hbnd
              · rw [hzeq]
                have hbcc := (bandE hbb).1
                rw [hp3, boundary_eq_prevW] at hbcc
                exact hbcc
            have hSin := hrecon v2 hend
            rw [← hv2] at hSin
            have hsome := emailShape_isSome _ m2 hSin
            rw [hmn] at hsome
            simp at hsome
        · simp [Bool.of_not_eq_true hb]
    · rw [emailAux_cons_some hb hm]
      have hS := emailFromStart_shape _ m hm ⟨c, rest, rfl, (bandE hb).2⟩
      obtain ⟨X, r, tlast, hXr, hXlen, hXbr, hXlast, htld, hbnd, hrecon⟩ :=
        emailShape_split hS
      have htk : rest.take (m - 1) = X := by
        rw [hXr, ← hXlen, List.take_left]
      have hdp : rest.drop (m - 1) = r := by
        rw [hXr, ← hXlen, List.drop_left]
      rw [noEmail_blocked_append _ emailBlocked_me _ _]
      have hml : "[EMAIL]".data.getLast? = some ']' := by decide
      have hpm : prevThrough p "[EMAIL]".data = some ']' := by
        unfold prevThrough
        rw [hml]
      rw [hpm]
      have hp2 : prevThrough (some c) (rest.take (m - 1)) = some tlast := by
        rw [htk]
        unfold prevThrough
        rw [hXlast]
      have hIH := emailAux_noEmail_bound n (prevThrough (some c) (rest.take (m - 1)))
        (rest.drop (m - 1)) (by rw [List.length_drop]; omega)
      cases hw : isWordChar tlast with
      | true =>
        apply noEmail_mono_head (show prevW (some ']') = false by decide) ?hd hIH
        intro d hd0
        rw [hdp] at hd0
        rcases emailAux_head? (prevThrough (some c) (rest.take (m - 1))) r with
          hh | ⟨hbr2, cc, rr, mm, hzeq, hbb, hm2⟩
        · rw [hh] at hd0
          have hb2 : (isWordChar tlast != isWordChar d) = true := by
            have h4 := hbnd
            rw [hd0] at h4
            exact h4
          rw [hw] at hb2
          cases hdw : isWordChar d with
          | false => rfl
          | true => rw [hdw] at hb2; simp at hb2
        · rw [hbr2] at hd0
          have h3 : ('[' : Char) = d := by simpa using hd0
          rw [← h3]
          decide
      | false =>
        have hcg := noEmail_congr
          (p := prevThrough (some c) (rest.take (m - 1))) (q := some ']')
          (by rw [hp2]; show isWordChar tlast = prevW (some ']'); rw [hw]; decide)
          (emailAux (prevThrough (some c) (rest.take (m - 1))) 0 (rest.drop (m - 1)))
        rw [← hcg]
        exact hIH


theorem emailAux_noIp_bound : ∀ (n : Nat) (p : Option Char) (v : List Char), v.length ≤ n →
    noIp p v = true → noIp p (emailAux p 0 v) = true
  | _, _, [], _, _ => rfl
  | 0, _, _ :: _, h, _ => by simp at h
  | n+1, p, c :: rest, h, hin => by
    have hn : rest.length ≤ n := by simpa using h
    have hparts := bandE (show ((!(boundary p c && c.isDigit
        && (ipFromStart (c :: rest)).isSome)) && noIp (some c) rest) = true from hin)
    have hstep : ((boundary p c && isLocalChar c) = false ∨ emailFromStart (c :: rest) = none)
        ∨ ∃ m, (boundary p c && isLocalChar c) = true
          ∧ emailFromStart (c :: rest) = some m := by
      by_cases hb : (boundary p c && isLocalChar c) = true
      · cases hm : emailFromStart (c :: rest) with
        | none => exact Or.inl (Or.inr rfl)
        | some m => exact Or.inr ⟨m, hb, rfl⟩
      · exact Or.inl (Or.inl (Bool.of_not_eq_true hb))
    rcases hstep with hOr | ⟨m, hb, hm⟩
    · rw [emailAux_cons_copy hOr]
      show ((!(boundary p c && c.isDigit
            && (ipFromStart (c :: emailAux (some c) 0 rest)).isSome))
          && noIp (some c) (emailAux (some c) 0 rest)) = true
      rw [emailAux_noIp_bound n (some c) rest hn hparts.2]
      by_cases hbd : (boundary p c && c.isDigit) = true
      · have hipn : ipFromStart (c :: rest) = none := by
          cases hq : ipFromStart (c :: rest) with
          | none => rfl
          | some mq =>
            exfalso
            have h1 := hparts.1
            rw [hq, hbd] at h1
            simp at h1
        suffices hno : ipFromStart (c :: emailAux (some c) 0 rest) = none by
          rw [hno]
          simp
        cases hI : ipFromStart (c :: emailAux (some c) 0 rest) with
        | none => rfl
        | some m2 =>
          exfalso
          have hS := (ipFromStart_eq_some_iff _ m2).mp hI
          obtain ⟨X, r, hXr, hXlen, hXbr, ⟨z, hXlast, hzdig⟩, hrhead, hrecon⟩ :=
            ipShape_split hS
          obtain ⟨v2, hv2, hr⟩ := emailAux_pullback X (some c) rest r hXr hXbr
          have hp3 : prevThrough (some c) X = some z := by
            unfold prevThrough
            rw [hXlast]
          have hpw : prevW (prevThrough (some c) X) = true := by
            rw [hp3]
            show isWordChar z = true
            unfold isWordChar
            simp [hzdig]
          have hv2head : ∀ x, v2.head? = some x → isWordChar x = false := by
            rcases emailAux_head? (prevThrough (some c) X) v2 with
              hh | ⟨hbr2, cc, rr, mm, hzeq, hbb, hm2⟩
            · rw [hr] at hh
              intro x hx
              exact hrhead x (by rw [hh]; exact hx)
            · intro x hx
              rw [hzeq] at hx
              have hxc : cc = x := by simpa using hx
              have hbcc := (bandE hbb).1
              rw [boundary_eq_prevW, hpw] at hbcc
              cases hcw : isWordChar cc with
              | false => rw [← hxc]; exact hcw
              | true => rw [hcw] at hbcc; simp at hbcc
          have hSin := hrecon v2 hv2head
          rw [← hv2] at hSin
          have hsome := (ipFromStart_eq_some_iff _ m2).mpr hSin
          rw [hipn] at hsome
          simp at hsome
      · simp [Bool.of_not_eq_true hbd]
    · rw [emailAux_cons_some hb hm]
      have hS := emailFromStart_shape _ m hm ⟨c, rest, rfl, (bandE hb).2⟩
      obtain ⟨X, r, tlast, hXr, hXlen, hXbr, hXlast, htld, hbnd, hrecon⟩ :=
        emailShape_split hS
      have htk : rest.take (m - 1) = X := by
        rw [hXr, ← hXlen, List.take_left]
      have hdp : rest.drop (m - 1) = r := by
        rw [hXr, ← hXlen, List.drop_left]
      rw [noIp_nodigit_append _ nodigit_me _ _]
      have hml : "[EMAIL]".data.getLast? = some ']' := by decide
      have hpm : prevThrough p "[EMAIL]".data = some ']' := by
        unfold prevThrough
        rw [hml]
      rw [hpm]
      have hp2 : prevThrough (some c) (rest.take (m - 1)) = some tlast := by
        rw [htk]
        unfold prevThrough
        rw [hXlast]
      have hdrin : noIp (prevThrough (some c) (rest.take (m - 1)))
          (rest.drop (m - 1)) = true := noIp_drop (m - 1) (some c) rest hparts.2
      have hIH := emailAux_noIp_bound n (prevThrough (some c) (rest.take (m - 1)))
        (rest.drop (m - 1)) (by rw [List.length_drop]; omega) hdrin
      cases hw : isWordChar tlast with
      | true =>
        apply noIp_mono_head (show prevW (some ']') = false by decide) ?hd hIH
        intro d hd0
        rw [hdp] at hd0
        rcases emailAux_head? (prevThrough (some c) (rest.take (m - 1))) r with
          hh | ⟨hbr2, cc, rr, mm, hzeq, hbb, hm2⟩
        · rw [hh] at hd0
          have hb2 : (isWordChar tlast != isWordChar d) = true := by
            have h4 := hbnd
            rw [hd0] at h4
            exact h4
          rw [hw] at hb2
          cases hdw : isWordChar d with
          | false => rfl
          | true => rw [hdw] at hb2; simp at hb2
        · rw [hbr2] at hd0
          have h3 : ('[' : Char) = d := by simpa using hd0
          rw [← h3]
          decide
      | false =>
        have hcg := noIp_congr
          (p := prevThrough (some c) (rest.take (m - 1))) (q := some ']')
          (by rw [hp2]; show isWordChar tlast = prevW (some ']'); rw [hw]; decide)
          (emailAux (prevThrough (some c) (rest.take (m - 1))) 0 (rest.drop (m - 1)))
        rw [← hcg]
        exact hIH


/-! ### Assembly: the filtered text is a fixed point of all four scanners. -/

theorem pathFixed_filterOutput (s : List Char) : pathFixed (filterOutput s) = true := by
  unfold filterOutput
  apply emailAux_pathFixed_bound _ none _ (Nat.le_refl _)
  apply ipAux_pathFixed_bound _ none _ (Nat.le_refl _)
  apply envAux_pathFixed_bound _ _ (Nat.le_refl _)
  exact pathAux_fixed_bound _ _ (Nat.le_refl _)

theorem noEnv_filterOutput (s : List Char) : noEnv (filterOutput s) = true := by
  unfold filterOutput
  apply emailAux_noEnv_bound _ none _ (Nat.le_refl _)
  apply ipAux_noEnv_bound _ none _ (Nat.le_refl _)
  exact envAux_noenv_bound _ _ (Nat.le_refl _)

theorem noIp_filterOutput (s : List Char) : noIp none (filterOutput s) = true := by
  unfold filterOutput
  apply emailAux_noIp_bound _ none _ (Nat.le_refl _)
  exact ipAux_noIp_bound _ none _ (Nat.le_refl _)

theorem noEmail_filterOutput (s : List Char) : noEmail none (filterOutput s) = true := by
  unfold filterOutput
  exact emailAux_noEmail_bound _ none _ (Nat.le_refl _)

theorem filterOutput_fixed (s : List Char) :
    filterOutput (filterOutput s) = filterOutput s := by
  show emailAux none 0 (ipAux none 0 (envAux 0 (pathAux 0 (filterOutput s)))) = filterOutput s
  rw [pathFixed_self _ (pathFixed_filterOutput s),
    noEnv_self _ (noEnv_filterOutput s),
    noIp_self _ none (noIp_filterOutput s),
    noEmail_self _ none (noEmail_filterOutput s)]


/-- On every exit path of GeneratePlot the temporary directory does not
survive the call: the chmod-failure path removes it explicitly and the
later paths remove it through the deferred cleanup. -/
theorem generatePlot_dir_not_exists (r : Runner) (env : Env) (script fmt : List Char)
    (w : PlotWorld) :
    (generatePlot r env script fmt w).dirExistsAfter = false := by
  unfold generatePlot
  repeat' split
  all_goals rfl

/-- Shared characterization of the subprocess invocation: the --eval
argument is the sanitized script, produced whenever the call is not
cancelled, the script is nonempty and raw validation passes. -/
theorem executeScript_spawned_script (r : Runner) (env : Env) (c : Bool) (s : List Char)
    (o : ExecOutcome) :
    (executeScript r env c s o).spawned.map SpawnInfo.script =
      if c = false ∧ s ≠ [] ∧ validateScript s = none then
        some (sanitizeScript env.octaveScriptLengthLimit s)
      else none := by
  unfold executeScript
  repeat' split
  all_goals simp_all

/-! ### Claims -/

/-- C1: the claim says validation rejects deny-listed function names
regardless of letter case and of whitespace before the parenthesis,
naming the function.  The code uses exact, case-sensitive
strings.Contains on lowercase patterns that include the parenthesis, so
the mixed-case call SyStEm(ls) and the spaced call system (ls) both
pass validation and reach the interpreter, while the repository tests
(octave_test.go, bypass-attempt cases) and the spec demand their
rejection.  Only the exact lowercase form is caught. -/
theorem c1_validator_misses_case_and_space :
    validateScript "SyStEm(ls)".data = none ∧
    validateScript "system (ls)".data = none ∧
    (executeScript runner0 defaultEnv false "SyStEm(ls)".data okOutcome).error = none ∧
    validateScript "system(ls)".data =
      some "script contains potentially dangerous function: system(".data := by decide

/-- C2: whenever a GeneratePlot call creates its temporary directory,
the directory no longer exists when the call returns, on every exit
path (success, permission-setting failure, executor failure, plot-read
failure). -/
theorem c2_temp_dir_removed (r : Runner) (env : Env) (script fmt : List Char) (w : PlotWorld)
    (_h : (generatePlot r env script fmt w).dirCreated = true) :
    (generatePlot r env script fmt w).dirExistsAfter = false :=
  generatePlot_dir_not_exists r env script fmt w

theorem c2_temp_dir_removed_witness :
    (generatePlot runner0 defaultEnv "plot(x)".data "png".data plotWorld0).dirCreated = true ∧
    (generatePlot runner0 defaultEnv "plot(x)".data "png".data plotWorld0).dirExistsAfter = false :=
  ⟨by decide, c2_temp_dir_removed runner0 defaultEnv "plot(x)".data "png".data plotWorld0
    (by decide)⟩

/-- C3 counterexample: ExecuteScript on the empty script returns an
error together with EMPTY text, so the text is not always populated on
error as the claim states. -/
theorem c3_empty_text_on_empty_script :
    (executeScript runner0 defaultEnv false [] okOutcome).text = [] ∧
    (executeScript runner0 defaultEnv false [] okOutcome).error = some .emptyScript := by decide

/-- C3 amended: the returned text is non-empty on subprocess failure
(filtered stderr, a newline, filtered trimmed stdout), equals the
filtered trimmed stdout on success (possibly empty), and is empty on
cancellation, empty-script input and validation failure; the error is
non-nil exactly on cancellation, empty script, validation failure or
subprocess failure. -/
theorem c3_text_characterized (r : Runner) (env : Env) (c : Bool) (s : List Char)
    (o : ExecOutcome) :
    ((executeScript r env c s o).error = some .execFailed →
      (executeScript r env c s o).text ≠ []) ∧
    ((executeScript r env c s o).error = none →
      (executeScript r env c s o).text = filterOutput (trimSpace o.stdout)) ∧
    ((executeScript r env c s o).error = some .ctxDone ∨
     (executeScript r env c s o).error = some .emptyScript ∨
     (∃ m, (executeScript r env c s o).error = some (.invalidScript m)) →
      (executeScript r env c s o).text = []) ∧
    ((executeScript r env c s o).error.isSome = true ↔
      (c = true ∨ s = [] ∨ (validateScript s).isSome = true ∨ o.failed = true)) := by
  unfold executeScript
  repeat' split
  all_goals simp_all

theorem c3_text_characterized_witness :
    (executeScript runner0 defaultEnv false "x = 1".data ⟨"out".data, "err".data, true⟩).text ≠ [] :=
  (c3_text_characterized runner0 defaultEnv false "x = 1".data ⟨"out".data, "err".data, true⟩).1
    (by decide)

/-- C4 counterexample: with the configured limit 3, the script of the
four bytes a b NUL NUL is longer than the limit, yet its sanitized form
has length 2, not 3: the length test runs after NUL stripping. -/
theorem c4_long_script_shorter_than_limit :
    scriptLengthLimit (some "3".data) < "ab\x00\x00".data.length ∧
    (sanitizeScript (some "3".data) "ab\x00\x00".data).length ≠ scriptLengthLimit (some "3".data) := by
  decide

/-- C4 amended: for every script whose length AFTER null-byte stripping
exceeds the configured limit, the sanitized script has length exactly
the limit. -/
theorem c4_sanitized_length_eq_limit (v : Option (List Char)) (s : List Char)
    (h : scriptLengthLimit v < (s.filter (fun c => c ≠ nulChar)).length) :
    (sanitizeScript v s).length = scriptLengthLimit v := by
  unfold sanitizeScript
  simp only [if_pos h, List.length_take]
  omega

theorem c4_sanitized_length_eq_limit_witness :
    scriptLengthLimit (some "3".data) < ("abcde".data.filter (fun c => c ≠ nulChar)).length ∧
    (sanitizeScript (some "3".data) "abcde".data).length = scriptLengthLimit (some "3".data) :=
  ⟨by decide, c4_sanitized_length_eq_limit (some "3".data) "abcde".data (by decide)⟩

/-- C5 counterexample: a runner constructed while OCTAVE_SCRIPT_TIMEOUT
was 5 runs a later execution under an environment where the variable is
7, and the subprocess deadline used is 7, not the startup value 5: the
variable is re-read inside ExecuteScript on every call. -/
theorem c5_timeout_read_at_call_time :
    (executeScript (newRunner env5 "9.2.0".data) env7 false "x = 1".data okOutcome).spawned =
      some ⟨"x = 1".data, 7⟩ ∧
    envPosInt env5.octaveScriptTimeout 10 = 5 := by decide

/-- C5 amended: the subprocess deadline of every ExecuteScript call is
derived from the environment at call time; the environment seen at
startup by NewRunner does not influence the call at all (the Runner
stores no timeout). -/
theorem c5_timeout_from_call_env (envStart envStart2 : Env) (v : List Char) (envCall : Env)
    (c : Bool) (s : List Char) (o : ExecOutcome) :
    executeScript (newRunner envStart v) envCall c s o =
      executeScript (newRunner envStart2 v) envCall c s o ∧
    (executeScript (newRunner envStart v) envCall c s o).spawned.map SpawnInfo.timeoutSec =
      (executeScript (newRunner envStart v) envCall c s o).spawned.map
        (fun _ => envPosInt envCall.octaveScriptTimeout 10) := by
  constructor
  · rfl
  · unfold executeScript
    repeat' split
    all_goals rfl

/-- C7: a format whose lowercase form is neither png nor svg makes
GeneratePlot fail with the unsupported-format error before any
filesystem or subprocess activity (no directory created, no interpreter
invoked); conversely a format equal to png or svg in any letter case is
never rejected as unsupported. -/
theorem c7_unsupported_format_rejected :
    (∀ (r : Runner) (env : Env) (script fmt : List Char) (w : PlotWorld),
      w.cancelled = false → toLowerStr fmt ≠ "png".data → toLowerStr fmt ≠ "svg".data →
      (generatePlot r env script fmt w).result = .error (.unsupportedFormat (toLowerStr fmt)) ∧
      (generatePlot r env script fmt w).dirCreated = false ∧
      (generatePlot r env script fmt w).innerExecution = none) ∧
    (∀ (r : Runner) (env : Env) (script fmt : List Char) (w : PlotWorld),
      toLowerStr fmt = "png".data ∨ toLowerStr fmt = "svg".data →
      ∀ fl, (generatePlot r env script fmt w).result ≠ .error (.unsupportedFormat fl)) := by
  constructor
  · intro r env script fmt w hc h1 h2
    unfold generatePlot
    rw [hc]
    simp only [Bool.false_eq_true, if_false]
    rw [if_pos ⟨h1, h2⟩]
    exact ⟨rfl, rfl, rfl⟩
  · intro r env script fmt w hfmt fl
    unfold generatePlot
    repeat' split
    all_goals simp_all

theorem c7_unsupported_format_witness :
    (generatePlot runner0 defaultEnv "plot(x)".data "JPG".data plotWorld0).result =
      .error (.unsupportedFormat "jpg".data) ∧
    (generatePlot runner0 defaultEnv "plot(x)".data "JPG".data plotWorld0).dirCreated = false ∧
    (generatePlot runner0 defaultEnv "plot(x)".data "JPG".data plotWorld0).innerExecution = none := by
  have h := c7_unsupported_format_rejected.1 runner0 defaultEnv "plot(x)".data "JPG".data
    plotWorld0 (by decide) (by decide) (by decide)
  simpa using h

/-- C8 counterexample: on failure the code concatenates the filtered
stderr with the filtered TRIMMED stdout.  With stderr empty and stdout
a single space the code returns the newline alone, while the claimed
formula filtered(stderr) + newline + filtered(stdout) keeps the
space. -/
theorem c8_stdout_is_trimmed_before_filtering :
    (executeScript runner0 defaultEnv false "x = 1".data ⟨" ".data, [], true⟩).text = "\n".data ∧
    filterOutput [] ++ '\n' :: filterOutput " ".data = "\n ".data ∧
    "\n".data ≠ "\n ".data := by decide

/-- C8 amended: whenever the subprocess fails, the diagnostic text is
the filtered stderr, a newline, and the filtered whitespace-trimmed
stdout. -/
theorem c8_failure_diagnostic (r : Runner) (env : Env) (s : List Char) (o : ExecOutcome)
    (hs : s ≠ []) (hv : validateScript s = none) (hf : o.failed = true) :
    (executeScript r env false s o).text =
      filterOutput o.stderr ++ '\n' :: filterOutput (trimSpace o.stdout) := by
  unfold executeScript
  simp only [Bool.false_eq_true, if_false, if_neg hs, hv, hf, if_pos]

theorem c8_failure_diagnostic_witness :
    (executeScript runner0 defaultEnv false "x = 1".data ⟨" hi ".data, "e".data, true⟩).text =
      filterOutput "e".data ++ '\n' :: filterOutput (trimSpace " hi ".data) :=
  c8_failure_diagnostic runner0 defaultEnv "x = 1".data ⟨" hi ".data, "e".data, true⟩
    (by decide) (by decide) (by decide)

/-- C9: ExecuteScript validates the raw script and then executes its
sanitized form without re-validation - the interpreter receives exactly
sanitizeScript of the input whenever validation of the raw input
passes.  Consequently the script system NUL (ls) passes validation,
yet after sanitization strips the NUL the executed text contains the
deny-listed fragment system( and would no longer pass validation. -/
theorem c9_validate_before_sanitize :
    (∀ (r : Runner) (env : Env) (c : Bool) (s : List Char) (o : ExecOutcome),
      (executeScript r env c s o).spawned.map SpawnInfo.script =
        if c = false ∧ s ≠ [] ∧ validateScript s = none then
          some (sanitizeScript env.octaveScriptLengthLimit s)
        else none) ∧
    (∃ s : List Char, validateScript s = none ∧
      strContains s "system(".data = false ∧
      strContains (sanitizeScript none s) "system(".data = true ∧
      (validateScript (sanitizeScript none s)).isSome = true) := by
  constructor
  · exact executeScript_spawned_script
  · exact ⟨"system\x00(ls)".data, by decide⟩

set_option maxHeartbeats 2000000 in
set_option maxRecDepth 8000 in
/-- C10: the script GeneratePlot hands to the interpreter is
sanitizeScript applied a second time to the wrapped script (header plus
already-sanitized caller script plus trailing print command), and for a
caller script whose own sanitized length is within the configured limit
(here 100) the wrapped script exceeds the limit, so the second
truncation removes the trailing print command from the executed
text, whatever the temporary directory name is. -/
theorem c10_wrapper_truncation :
    (∀ (r : Runner) (env : Env) (script fmt : List Char) (w : PlotWorld) (d : List Char),
      w.cancelled = false →
      (toLowerStr fmt = "png".data ∨ toLowerStr fmt = "svg".data) →
      validateScript script = none → w.mkdirResult = some d → w.chmodOk = true →
      (generatePlot r env script fmt w).innerExecution =
        some (executeScript r env w.innerCancelled
          (wrappedScript (sanitizeScript env.octaveScriptLengthLimit script)
            (plotFilePath d (toLowerStr fmt))) w.outcome) ∧
      ((generatePlot r env script fmt w).innerExecution.bind ExecResult.spawned).map
          SpawnInfo.script =
        (if w.innerCancelled = false ∧
            validateScript (wrappedScript (sanitizeScript env.octaveScriptLengthLimit script)
              (plotFilePath d (toLowerStr fmt))) = none then
          some (sanitizeScript env.octaveScriptLengthLimit
            (wrappedScript (sanitizeScript env.octaveScriptLengthLimit script)
              (plotFilePath d (toLowerStr fmt))))
        else none)) ∧
    (∃ scr : List Char, validateScript scr = none ∧
      (sanitizeScript (some "100".data) scr).length ≤ scriptLengthLimit (some "100".data) ∧
      ∀ d : List Char,
        scriptLengthLimit (some "100".data) <
          (wrappedScript (sanitizeScript (some "100".data) scr)
            (plotFilePath d "png".data)).length ∧
        strContains
          (sanitizeScript (some "100".data)
            (wrappedScript (sanitizeScript (some "100".data) scr)
              (plotFilePath d "png".data)))
          "print(".data = false) := by
  constructor
  · intro r env script fmt w d hc hfmt hval hmk hch
    have hinner : (generatePlot r env script fmt w).innerExecution =
        some (plotInner r env script fmt d w) := by
      unfold generatePlot
      rw [hc]
      simp only [Bool.false_eq_true, if_false]
      rw [if_neg (by rcases hfmt with h | h <;> simp [h])]
      rw [hval, hmk]
      simp only [hch, not_true, if_false]
      split <;> [rfl; split <;> rfl]
    constructor
    · rw [hinner]; rfl
    · rw [hinner]
      show ((plotInner r env script fmt d w).spawned).map SpawnInfo.script = _
      unfold plotInner
      rw [executeScript_spawned_script]
      have hne : wrappedScript (sanitizeScript env.octaveScriptLengthLimit script)
          (plotFilePath d (toLowerStr fmt)) ≠ [] := by
        unfold wrappedScript
        simp
      by_cases h1 : w.innerCancelled = false
      · by_cases h2 : validateScript (wrappedScript
            (sanitizeScript env.octaveScriptLengthLimit script)
            (plotFilePath d (toLowerStr fmt))) = none
        · rw [if_pos ⟨h1, hne, h2⟩, if_pos ⟨h1, h2⟩]
        · rw [if_neg (by tauto), if_neg (by tauto)]
      · rw [if_neg (by tauto), if_neg (by tauto)]
  · refine ⟨List.replicate 90 'a', by decide, by decide, ?_⟩
    intro d
    have hsan : sanitizeScript (some "100".data) (List.replicate 90 'a') =
        List.replicate 90 'a' := by decide
    have hlim : scriptLengthLimit (some "100".data) = 100 := by decide
    rw [hsan, hlim]
    have heq : wrappedScript (List.replicate 90 'a') (plotFilePath d "png".data) =
        ("\ngraphics_toolkit(\"gnuplot\");\nset(0, \"defaultfigurevisible\", \"off\");\n".data
          ++ List.replicate 90 'a') ++
        ("\nprint(\"".data ++ (d ++ "/plot.".data ++ "png".data) ++ "\");\n".data) := by
      unfold wrappedScript plotFilePath
      simp [List.append_assoc]
    have hAlen :
        ("\ngraphics_toolkit(\"gnuplot\");\nset(0, \"defaultfigurevisible\", \"off\");\n".data
          ++ List.replicate 90 'a').length = 159 := by decide
    constructor
    · rw [heq, List.length_append, hAlen]
      omega
    · rw [heq]
      unfold sanitizeScript
      rw [List.filter_append]
      have hfA :
          (("\ngraphics_toolkit(\"gnuplot\");\nset(0, \"defaultfigurevisible\", \"off\");\n".data
            ++ List.replicate 90 'a').filter (fun c => c ≠ nulChar)) =
          "\ngraphics_toolkit(\"gnuplot\");\nset(0, \"defaultfigurevisible\", \"off\");\n".data
            ++ List.replicate 90 'a' := by decide
      rw [hfA, hlim]
      rw [if_pos (by rw [List.length_append, hAlen]; omega)]
      rw [List.take_append_eq_append_take, hAlen]
      norm_num
      decide

theorem c10_wrapper_truncation_witness :
    (generatePlot runner0 defaultEnv "plot(x)".data "png".data plotWorld0).innerExecution =
      some (executeScript runner0 defaultEnv plotWorld0.innerCancelled
        (wrappedScript (sanitizeScript defaultEnv.octaveScriptLengthLimit "plot(x)".data)
          (plotFilePath "/tmp/octave-plot-1".data (toLowerStr "png".data)))
        plotWorld0.outcome) :=
  (c10_wrapper_truncation.1 runner0 defaultEnv "plot(x)".data "png".data plotWorld0
    "/tmp/octave-plot-1".data (by decide) (Or.inl (by decide)) (by decide) (by decide)
    (by decide)).1


/-- C6: the output filter is idempotent: for every text, applying the
four substitutions of filterOutput (path redaction, then
environment-variable redaction, then IPv4 redaction, then email
redaction) twice yields the same result as applying them once. -/
theorem c6_filter_idempotent (s : List Char) :
    filterOutput (filterOutput s) = filterOutput s :=
  filterOutput_fixed s

end OctaveMCP
